import Mathlib

/-!
Verification of the retrieval/storage core of the froggy-mcp-rag repository.

The development shallowly embeds the JavaScript sources:

* `SearchService` (streaming version, the current source of truth):
  tokenizer, BM25 / TF-IDF / cosine scoring, document-frequency index,
  in-memory and streaming (FromDB) search pipelines, hybrid fusion.
* `VectorStore`: the chunk store together with the document-frequency
  cache tables and their invalidation rules.
* `DocumentProcessor.chunkContent` and `RAGService.processQueueItem`:
  the chunking pipeline and the delete-then-insert re-ingestion step.

Modelling conventions, used consistently below:

* JavaScript numbers are modelled as `ℚ`.  Every float the engine
  manipulates is a rational; `Math.log` and `Math.sqrt` are therefore
  modelled as explicit function parameters (`FloatOps`), so every
  definition stays executable.  Counterexamples instantiate them with
  piecewise functions that agree with the sign behaviour of the real
  `Math.log` / `Math.sqrt` at the rationals where they are applied.
* Strings are `List Char`.  A JavaScript value that may be a non-string
  (the query reaching `tokenize`) is `Option (List Char)`.
* `natural`'s `WordTokenizer` is an external library (not part of this
  repository); per the specification it is a word-boundary tokenizer,
  modelled as splitting into maximal runs of alphanumeric-or-underscore
  characters.
* A JavaScript object used as a string-keyed counter map is an
  association list updated in insertion order; a JS `Set` is
  first-occurrence deduplication (`setOrder`).
* `Array.prototype.sort` with the comparator `(a, b) => b.score - a.score`
  is a stable sort by descending score.  Results are tagged with their
  stream position `pos`; a stable sort by score on a list whose ties
  always appear in ascending `pos` order is extensionally the unique
  sort by the lexicographic order (score descending, `pos`, `id`),
  which is how `sortR` is defined.
-/

namespace Rag

/-- First-occurrence deduplication: the iteration order of a JS `Set`
built by inserting the elements of a list in order. -/
def setOrderAux [DecidableEq α] (seen : List α) : List α → List α
  | [] => []
  | a :: l => if a ∈ seen then setOrderAux seen l else a :: setOrderAux (a :: seen) l

/-- JS `[...new Set(l)]`. -/
def setOrder [DecidableEq α] (l : List α) : List α :=
  setOrderAux [] l

/-- Fuel-driven splitter into consecutive batches (structural recursion
so that the kernel can evaluate it; the fuel is an upper bound on the
list length and is never exhausted at the call sites). -/
def batchesAux (n : ℕ) : ℕ → List α → List (List α)
  | 0, _ => []
  | _, [] => []
  | fuel + 1, a :: t =>
      if n = 0 then [a :: t]
      else (a :: t).take n :: batchesAux n fuel (t.drop (n - 1))

/-- Split a list into consecutive batches of size `n` (the final batch may
be shorter).  Models both `chunks.slice(i, i + BATCH_SIZE)` loops and the
batched cursor scan of `getChunksBatched`. -/
def batches (n : ℕ) (l : List α) : List (List α) :=
  batchesAux n l.length l

/-- `Math.max(...scores)` over a non-empty list (0 for the empty list,
which the source never produces). -/
def listMax : List ℚ → ℚ
  | [] => 0
  | a :: l => l.foldl max a

/-- `Math.min(...scores)` over a non-empty list. -/
def listMin : List ℚ → ℚ
  | [] => 0
  | a :: l => l.foldl min a

/-! ### Tokenizer

`SearchService.tokenize` (search-service.js): normalize Unicode
whitespace, split into words with `natural`'s `WordTokenizer`, lowercase,
drop empty tokens. -/

/-- Character class of the Unicode-whitespace normalization regex in
`tokenize`: U+00A0, U+1680, U+2000..U+200B, U+202F, U+205F, U+3000,
U+FEFF. -/
def isNormSpaceChar (c : Char) : Bool :=
  c = '\u00A0' || c = '\u1680' || ('\u2000' ≤ c && c ≤ '\u200B') ||
  c = '\u202F' || c = '\u205F' || c = '\u3000' || c = '\uFEFF'

/-- The whitespace-normalization step of `tokenize`: every character of
the class above is replaced by a plain space. -/
def normalizeWs (s : List Char) : List Char :=
  s.map fun c => if isNormSpaceChar c then ' ' else c

/-- Word characters recognised by the word-boundary tokenizer
(`natural.WordTokenizer`, external library, modelled from the spec:
"lowercase, Unicode-whitespace-normalized, word-boundary tokenizer"). -/
def isWordChar (c : Char) : Bool :=
  c.isAlphanum || c = '_'

/-- Accumulating splitter into maximal runs of word characters.
`acc` holds the (reversed) run currently being read. -/
def wordsAux (acc : List Char) : List Char → List (List Char)
  | [] => if acc = [] then [] else [acc.reverse]
  | c :: cs =>
      if isWordChar c then wordsAux (c :: acc) cs
      else if acc = [] then wordsAux [] cs
      else acc.reverse :: wordsAux [] cs

/-- Split a string into its maximal runs of word characters. -/
def words (s : List Char) : List (List Char) :=
  wordsAux [] s

/-- `SearchService.tokenize`.  `none` models a non-string argument
(`typeof text !== 'string'`), `some []` the empty string (falsy). -/
def tokenize : Option (List Char) → List (List Char)
  | none => []
  | some s =>
      if s = [] then []
      else ((words (normalizeWs s)).map (List.map Char.toLower)).filter
        fun w => 0 < w.length

/-! ### Float operations

`Math.log` and `Math.sqrt` as uninterpreted rational functions. -/

/-- The transcendental operations the scoring code calls. -/
structure FloatOps where
  log : ℚ → ℚ
  sqrt : ℚ → ℚ

/-- Sign behaviour of the real `Math.log` on positive arguments: negative
below 1, zero at 1, positive above 1, and weakly monotone. -/
def LogOk (f : ℚ → ℚ) : Prop :=
  (∀ x : ℚ, 0 < x → x < 1 → f x < 0) ∧
  (∀ x : ℚ, 1 < x → 0 < f x) ∧
  f 1 = 0 ∧
  (∀ x y : ℚ, 0 < x → x ≤ y → f x ≤ f y)

/-- A sign-faithful piecewise stand-in for `Math.log`, used to build
concrete counterexample instances. -/
def signLog (x : ℚ) : ℚ :=
  if x < 1 then -1 else if x = 1 then 0 else 1

/-- A stand-in for `Math.sqrt` that is correct at the arguments where the
concrete corpora below apply it. -/
def unitSqrt (x : ℚ) : ℚ :=
  if x = 1 then 1 else 0

/-- Concrete float operations for counterexamples and witnesses. -/
def ops0 : FloatOps :=
  { log := signLog, sqrt := unitSqrt }

/-! ### Document-frequency index

`buildDocumentFrequencyIndex`: term → number of chunks containing the
term, plus `avgDocLength` and `totalDocs`. -/

/-- One term of the JS `docFreqs` object. -/
abbrev Term := List Char

/-- `docFreqs[term] = (docFreqs[term] || 0) + 1` on an object modelled as
an association list in key-insertion order. -/
def bumpDF : List (Term × ℕ) → Term → List (Term × ℕ)
  | [], t => [(t, 1)]
  | (k, v) :: m, t => if k = t then (k, v + 1) :: m else (k, v) :: bumpDF m t

/-- `docFreqs[term] || 0`. -/
def dfGet (m : List (Term × ℕ)) (t : Term) : ℕ :=
  match m.find? fun p => p.1 = t with
  | some p => p.2
  | none => 0

/-- Result of `buildDocumentFrequencyIndex` /
`buildDocumentFrequencyIndexFromDB`. -/
structure DFIndex where
  docFreqs : List (Term × ℕ)
  avgDocLength : ℚ
  totalDocs : ℚ
deriving DecidableEq

/-- Intermediate accumulator of the index builders: the `docFreqs`
object, the `chunkLengths` array, and the streaming builder's
`totalDocs` counter. -/
structure DFAcc where
  docFreqs : List (Term × ℕ)
  chunkLengths : List ℕ
  count : ℕ
deriving DecidableEq

/-- Per-chunk update shared by both index builders: tokenize the
content, record its length, bump the document frequency of each unique
term. -/
def dfStep (acc : DFAcc) (content : List Char) : DFAcc :=
  let terms := tokenize (some content)
  { docFreqs := (setOrder terms).foldl bumpDF acc.docFreqs
    chunkLengths := acc.chunkLengths ++ [terms.length]
    count := acc.count + 1 }

/-- `chunkLengths.reduce((a, b) => a + b, 0) / chunkLengths.length`,
guarded by `chunkLengths.length > 0`. -/
def avgOfLengths (lengths : List ℕ) : ℚ :=
  if lengths.length > 0 then ((lengths.map fun n => (n : ℚ)).sum) / (lengths.length : ℚ)
  else 0

/-! ### Scoring -/

/-- BM25 term-frequency saturation parameter `this.k1 = 1.5`. -/
def bm25K1 : ℚ := 3 / 2

/-- BM25 length-normalization parameter `this.b = 0.75`. -/
def bm25B : ℚ := 3 / 4

/-- `SearchService.calculateBM25Score`. -/
def calculateBM25Score (ops : FloatOps) (queryTerms : List Term)
    (chunkContent : List Char) (avgDocLength totalDocs : ℚ)
    (docFreqs : List (Term × ℕ)) : ℚ :=
  let chunkTerms := tokenize (some chunkContent)
  let chunkLength : ℚ := chunkTerms.length
  (setOrder queryTerms).foldl
    (fun score term =>
      let tf : ℚ := chunkTerms.count term
      let df : ℚ := dfGet docFreqs term
      if df = 0 then score
      else
        let idf := ops.log ((totalDocs - df + 1 / 2) / (df + 1 / 2))
        let num := tf * (bm25K1 + 1)
        let den := tf + bm25K1 * (1 - bm25B + bm25B * (chunkLength / avgDocLength))
        score + idf * (num / den))
    0

/-- `SearchService.calculateTFIDFScore`. -/
def calculateTFIDFScore (ops : FloatOps) (queryTerms : List Term)
    (chunkContent : List Char) (totalDocs : ℚ)
    (docFreqs : List (Term × ℕ)) : ℚ :=
  let chunkTerms := tokenize (some chunkContent)
  (setOrder queryTerms).foldl
    (fun score term =>
      let tf : ℚ := chunkTerms.count term
      let df : ℚ := dfGet docFreqs term
      if df = 0 ∨ tf = 0 then score
      else
        let normalizedTF := tf / (chunkTerms.length : ℚ)
        let idf := ops.log (totalDocs / df)
        score + normalizedTF * idf)
    0

/-- `SearchService.cosineSimilarity`; `none` models a null/undefined
vector (note that an empty JS array is truthy, hence `some []`). -/
def cosineSimilarity (ops : FloatOps) : Option (List ℚ) → Option (List ℚ) → ℚ
  | some a, some b =>
      if a.length ≠ b.length then 0
      else
        let dot := (List.zipWith (fun x y => x * y) a b).sum
        let nA := (a.map fun x => x * x).sum
        let nB := (b.map fun x => x * x).sum
        let den := ops.sqrt nA * ops.sqrt nB
        if den = 0 then 0 else dot / den
  | _, _ => 0

/-- The streaming BM25 pre-filter `hasQueryTerm`: does the lowercased
content contain some query term as a substring? -/
def hasQueryTerm (queryTerms : List Term) (content : List Char) : Bool :=
  (setOrder queryTerms).any fun t => decide (t <:+: content.map Char.toLower)

/-! ### Chunks, scored results, and the stable sort -/

/-- A stored chunk (row of the `chunks` table / element of a
materialized chunk list).  `embedding` is `none` for a SQL NULL. -/
structure Chunk where
  id : ℕ
  document_id : ℕ
  content : List Char
  embedding : Option (List ℚ)
  chunk_index : ℕ
deriving DecidableEq

/-- `chunk.embedding && chunk.embedding.length > 0`. -/
def embOk (c : Chunk) : Bool :=
  match c.embedding with
  | some e => 0 < e.length
  | none => false

/-- A scored search result.  `pos` is the position of the originating
chunk in the scan (a model artifact standing for JS object identity,
used to express the stability of `Array.prototype.sort`). -/
structure SR where
  pos : ℕ
  id : ℕ
  score : ℚ
deriving DecidableEq

/-- The order realized by the stable JS sort
`(a, b) => b.score - a.score`: score descending, ties by stream
position.  The final `id` component never decides between distinct
elements of any list the model sorts (their positions differ); it only
makes the order antisymmetric. -/
def srLE (a b : SR) : Prop :=
  b.score < a.score ∨
    (b.score = a.score ∧ (a.pos < b.pos ∨ (a.pos = b.pos ∧ a.id ≤ b.id)))

instance : DecidableRel srLE := fun a b => by
  unfold srLE; infer_instance

instance : IsTotal SR srLE := by
  constructor
  intro a b
  unfold srLE
  rcases lt_trichotomy a.score b.score with h | h | h
  · exact Or.inr (Or.inl h)
  · rcases lt_trichotomy a.pos b.pos with hp | hp | hp
    · exact Or.inl (Or.inr ⟨h.symm, Or.inl hp⟩)
    · rcases le_total a.id b.id with hi | hi
      · exact Or.inl (Or.inr ⟨h.symm, Or.inr ⟨hp, hi⟩⟩)
      · exact Or.inr (Or.inr ⟨h, Or.inr ⟨hp.symm, hi⟩⟩)
    · exact Or.inr (Or.inr ⟨h, Or.inl hp⟩)
  · exact Or.inl (Or.inl h)

instance : IsTrans SR srLE := by
  constructor
  intro a b c hab hbc
  unfold srLE at *
  rcases hab with h1 | ⟨h1, h1'⟩
  · rcases hbc with h2 | ⟨h2, h2'⟩
    · exact Or.inl (h2.trans h1)
    · exact Or.inl (h2 ▸ h1)
  · rcases hbc with h2 | ⟨h2, h2'⟩
    · exact Or.inl (h1 ▸ h2)
    · refine Or.inr ⟨h2.trans h1, ?_⟩
      rcases h1' with hp1 | ⟨hp1, hi1⟩
      · rcases h2' with hp2 | ⟨hp2, _⟩
        · exact Or.inl (hp1.trans hp2)
        · exact Or.inl (hp2 ▸ hp1)
      · rcases h2' with hp2 | ⟨hp2, hi2⟩
        · exact Or.inl (hp1 ▸ hp2)
        · exact Or.inr ⟨hp1.trans hp2, hi1.trans hi2⟩

instance : IsAntisymm SR srLE := by
  constructor
  intro a b hab hba
  rcases a with ⟨ap, ai, as⟩
  rcases b with ⟨bp, bi, bs⟩
  unfold srLE at hab hba
  simp only at hab hba
  have hs : as = bs := by
    rcases hab with h | ⟨h, _⟩
    · rcases hba with h' | ⟨h', _⟩
      · exact absurd h' (lt_asymm h)
      · exact h'
    · exact h.symm
  subst hs
  have hpos : ap = bp ∧ ai = bi := by
    rcases hab with h | ⟨-, hp⟩
    · exact absurd h (lt_irrefl _)
    rcases hba with h' | ⟨-, hp'⟩
    · exact absurd h' (lt_irrefl _)
    rcases hp with hlt | ⟨hpe, hile⟩
    · rcases hp' with hlt' | ⟨hpe', _⟩ <;> omega
    · rcases hp' with hlt' | ⟨hpe', hile'⟩
      · omega
      · exact ⟨hpe, le_antisymm hile hile'⟩
  rw [hpos.1, hpos.2]

/-- The stable JS sort by descending score. -/
def sortR (l : List SR) : List SR :=
  l.insertionSort srLE

/-- Merge of two lists, ordered by `srLE` (proof-level tool for the
top-K analysis; never executed). -/
def mergeSR : List SR → List SR → List SR
  | [], v => v
  | u, [] => u
  | a :: u, b :: v =>
      if srLE a b then a :: mergeSR u (b :: v) else b :: mergeSR (a :: u) v
termination_by u v => u.length + v.length

/-! ### In-memory search pipelines -/

/-- A chunk tagged with its scan position. -/
abbrev TChunk := ℕ × Chunk

/-- `buildDocumentFrequencyIndex`.  The source's large-corpus branch
performs the same per-chunk updates in the same order, merely sliced
into batches of 1000, so both branches are this single fold. -/
def buildDocumentFrequencyIndex (chunks : List Chunk) : DFIndex :=
  let acc := chunks.foldl (fun a c => dfStep a c.content) ⟨[], [], 0⟩
  { docFreqs := acc.docFreqs
    avgDocLength := avgOfLengths acc.chunkLengths
    totalDocs := (chunks.length : ℚ) }

/-- The in-loop top-K maintenance shared by every search loop: push a
transformed batch, and if the buffer exceeds `thresh`, sort and keep the
best `k` (`topResults.sort(...); topResults.splice(limit)`). -/
def topAccum (k thresh : ℕ) (f : List β → List SR) :
    List (List β) → List SR → List SR
  | [], acc => acc
  | bt :: bs, acc =>
      let acc' := acc ++ f bt
      topAccum k thresh f bs (if thresh < acc'.length then (sortR acc').take k else acc')

/-- Run the batched loop and apply the final
`.sort((a, b) => b.score - a.score).slice(0, limit)`. -/
def topFinish (k thresh : ℕ) (f : List β → List SR) (bs : List (List β)) : List SR :=
  (sortR (topAccum k thresh f bs [])).take k

/-- The BM25 result record for one scanned chunk. -/
def bm25SR (ops : FloatOps) (dfi : DFIndex) (queryTerms : List Term) (p : TChunk) : SR :=
  ⟨p.1, p.2.id, calculateBM25Score ops queryTerms p.2.content
    dfi.avgDocLength dfi.totalDocs dfi.docFreqs⟩

/-- The TF-IDF result record for one scanned chunk. -/
def tfidfSR (ops : FloatOps) (dfi : DFIndex) (queryTerms : List Term) (p : TChunk) : SR :=
  ⟨p.1, p.2.id, calculateTFIDFScore ops queryTerms p.2.content
    dfi.totalDocs dfi.docFreqs⟩

/-- The vector result record for one scanned chunk. -/
def vecSR (ops : FloatOps) (queryEmbedding : Option (List ℚ)) (p : TChunk) : SR :=
  ⟨p.1, p.2.id, cosineSimilarity ops queryEmbedding p.2.embedding⟩

/-- `SearchService.searchBM25` (in-memory). -/
def searchBM25 (ops : FloatOps) (query : Option (List Char))
    (chunks : List Chunk) (limit : ℕ) : List SR :=
  let queryTerms := tokenize query
  if queryTerms = [] then []
  else
    let dfi := buildDocumentFrequencyIndex chunks
    topFinish limit (limit * 2)
      (fun batch => (batch.map (bm25SR ops dfi queryTerms)).filter fun r => 0 < r.score)
      (batches 1000 chunks.enum)

/-- `SearchService.searchTFIDF` (in-memory). -/
def searchTFIDF (ops : FloatOps) (query : Option (List Char))
    (chunks : List Chunk) (limit : ℕ) : List SR :=
  let queryTerms := tokenize query
  if queryTerms = [] then []
  else
    let dfi := buildDocumentFrequencyIndex chunks
    topFinish limit (limit * 2)
      (fun batch => (batch.map (tfidfSR ops dfi queryTerms)).filter fun r => 0 < r.score)
      (batches 1000 chunks.enum)

/-- The candidate-restriction step at the head of `searchVector`: keep
the chunks with embeddings, restrict to the candidate ids when that
restriction is non-empty, otherwise fall back to every embedded chunk. -/
def vectorCandidateChunks (chunks : List Chunk)
    (candidateIds : Option (List ℕ)) : List TChunk :=
  let chunksWithEmbeddings := chunks.enum.filter fun p => embOk p.2
  match candidateIds with
  | some cs =>
      if 0 < cs.length then
        let filtered := chunksWithEmbeddings.filter fun p => p.2.id ∈ cs
        if 0 < filtered.length then filtered else chunksWithEmbeddings
      else chunksWithEmbeddings
  | none => chunksWithEmbeddings

/-- `SearchService.searchVector` (in-memory). -/
def searchVector (ops : FloatOps) (queryEmbedding : Option (List ℚ))
    (chunks : List Chunk) (limit : ℕ) (candidateIds : Option (List ℕ)) : List SR :=
  let withC := vectorCandidateChunks chunks candidateIds
  if withC.length = 0 then []
  else
    topFinish limit (limit * 2)
      (fun batch => (batch.map (vecSR ops queryEmbedding)).filter fun r => 0 < r.score)
      (batches 500 withC)

/-- `SearchService.buildVectorCandidateSet`. -/
def buildVectorCandidateSet (bm25Results : List SR) (limit : ℕ)
    (mult : ℕ) : Option (List ℕ) :=
  if bm25Results.length = 0 ∨ limit = 0 then none
  else
    let maxCandidates := max (limit * mult) limit
    let candidateSet := (setOrder (bm25Results.map (·.id))).take maxCandidates
    if candidateSet.length = 0 then none else some candidateSet

/-- The `normalizeScores` closure of `searchHybrid`, as the lookup map
it produces: min-max normalization over the result set, `|| 0` for ids
outside it. -/
def normMap (results : List SR) : ℕ → ℚ := fun cid =>
  match results.find? fun r => r.id = cid with
  | none => 0
  | some r =>
      let maxScore := listMax (results.map (·.score))
      let minScore := listMin (results.map (·.score))
      let range := if maxScore - minScore = 0 then 1 else maxScore - minScore
      (r.score - minScore) / range

/-- The tail of both hybrid searches: materialize each combined entry
whose chunk can be looked up, drop non-positive scores, sort by score
descending (stable in entry order), truncate to `limit`. -/
def hybridAssemble (limit : ℕ) (entries : List (ℕ × ℚ))
    (lookup : ℕ → Option Chunk) : List SR :=
  let results := entries.enum.filterMap fun p =>
    (lookup p.2.1).map fun _ => (⟨p.1, p.2.1, p.2.2⟩ : SR)
  (sortR (results.filter fun r => 0 < r.score)).take limit

/-- `SearchService.searchHybrid` (in-memory). -/
def searchHybrid (ops : FloatOps) (query : Option (List Char))
    (queryEmbedding : Option (List ℚ)) (chunks : List Chunk) (limit : ℕ)
    (bm25Weight vectorWeight : ℚ) : List SR :=
  let bm25Results := searchBM25 ops query chunks (limit * 2)
  let candidateIds := buildVectorCandidateSet bm25Results limit 4
  let vectorResults := searchVector ops queryEmbedding chunks (limit * 2) candidateIds
  let normalizedBM25 := normMap bm25Results
  let normalizedVector := normMap vectorResults
  let allChunkIds := setOrder (bm25Results.map (·.id) ++ vectorResults.map (·.id))
  let entries := allChunkIds.map fun cid =>
    (cid, normalizedBM25 cid * bm25Weight + normalizedVector cid * vectorWeight)
  hybridAssemble limit entries fun cid => chunks.find? fun c => c.id = cid

/-! ### The persistent store (`VectorStore`)

`chunks` is the `chunks` table in rowid (insertion) order; `dfi` and
`stats` are the `document_frequency_index` and `chunk_statistics` cache
tables; `docs` the ids of the `documents` table. -/

/-- Key of the `chunk_statistics` table (only two keys are ever
written). -/
inductive StatKey
  | avgDocLength
  | totalDocs
deriving DecidableEq

/-- The persistent store. -/
structure Store where
  chunks : List Chunk
  dfi : List (Term × ℕ)
  stats : List (StatKey × ℚ)
  docs : List ℕ
deriving DecidableEq

/-- `VectorStore.invalidateDocumentFrequencyIndex`: delete every row of
both cache tables. -/
def invalidateDocumentFrequencyIndex (s : Store) : Store :=
  { s with dfi := [], stats := [] }

/-- `VectorStore.addChunks`: bulk insert, then invalidate the cache. -/
def addChunks (s : Store) (newChunks : List Chunk) : Store :=
  invalidateDocumentFrequencyIndex { s with chunks := s.chunks ++ newChunks }

/-- `VectorStore.deleteDocumentChunks`: delete the document's chunks,
then invalidate the cache. -/
def deleteDocumentChunks (s : Store) (documentId : ℕ) : Store :=
  invalidateDocumentFrequencyIndex
    { s with chunks := s.chunks.filter fun c => c.document_id ≠ documentId }

/-- `VectorStore.deleteDocument`: atomically delete the document and its
chunks, then invalidate the cache. -/
def deleteDocument (s : Store) (documentId : ℕ) : Store :=
  invalidateDocumentFrequencyIndex
    { s with
      chunks := s.chunks.filter fun c => c.document_id ≠ documentId
      docs := s.docs.filter fun d => d ≠ documentId }

/-- `VectorStore.clearStore`. -/
def clearStore (s : Store) : Store :=
  invalidateDocumentFrequencyIndex { s with chunks := [], docs := [] }

/-- `VectorStore.addDocument` (`INSERT OR REPLACE`): upsert by id. -/
def addDocument (s : Store) (documentId : ℕ) : Store :=
  if documentId ∈ s.docs then s else { s with docs := s.docs ++ [documentId] }

/-- `VectorStore.isDocumentFrequencyIndexCacheValid`. -/
def isDocumentFrequencyIndexCacheValid (s : Store) : Bool :=
  0 < s.dfi.length && 2 ≤ s.stats.length

/-- `VectorStore.getCachedChunkStatistics` read through the
`stats.avgDocLength || 0` / `stats.totalDocs || 0` accesses of
`buildDocumentFrequencyIndexFromDB`. -/
def statGet (s : Store) (k : StatKey) : ℚ :=
  match s.stats.find? fun p => p.1 = k with
  | some p => p.2
  | none => 0

/-- The cached index as read back by
`buildDocumentFrequencyIndexFromDB`. -/
def getCachedIndex (s : Store) : DFIndex :=
  { docFreqs := s.dfi
    avgDocLength := statGet s StatKey.avgDocLength
    totalDocs := statGet s StatKey.totalDocs }

/-- `VectorStore.cacheDocumentFrequencyIndex`: replace both cache tables
wholesale. -/
def cacheDocumentFrequencyIndex (s : Store) (docFreqs : List (Term × ℕ))
    (avgDocLength totalDocs : ℚ) : Store :=
  { s with
    dfi := docFreqs
    stats := [(StatKey.avgDocLength, avgDocLength), (StatKey.totalDocs, totalDocs)] }

/-- `VectorStore.getChunk`: point lookup by primary key. -/
def getChunk (s : Store) (chunkId : ℕ) : Option Chunk :=
  s.chunks.find? fun c => c.id = chunkId

/-! ### Streaming search pipelines (`...FromDB`)

The SQL `WHERE` clause is modelled as `Option (Chunk → Bool)`; `none` is
the empty clause `''` (the only case in which the cache is consulted or
refreshed).  `getChunksBatched` scans the rows matching the clause in
rowid order, in batches of the requested size. -/

/-- The rows a `getChunksBatched` scan visits, tagged with scan
position. -/
def scanRows (s : Store) (w : Option (Chunk → Bool)) : List TChunk :=
  match w with
  | none => s.chunks.enum
  | some p => s.chunks.enum.filter fun q => p q.2

/-- The streaming document-frequency index build of
`buildDocumentFrequencyIndexFromDB`, fed by `getChunksBatched` with
batches of 1000. -/
def dfiFromScan (rows : List TChunk) : DFIndex :=
  let acc := (batches 1000 rows).foldl
    (fun a batch => batch.foldl (fun a' p => dfStep a' p.2.content) a) ⟨[], [], 0⟩
  { docFreqs := acc.docFreqs
    avgDocLength := avgOfLengths acc.chunkLengths
    totalDocs := (acc.count : ℚ) }

/-- `SearchService.buildDocumentFrequencyIndexFromDB`.  The write-back of
the freshly built index into the cache does not influence the returned
index, so the store mutation is not modelled here. -/
def buildDocumentFrequencyIndexFromDB (s : Store)
    (w : Option (Chunk → Bool)) : DFIndex :=
  match w with
  | none =>
      if isDocumentFrequencyIndexCacheValid s then getCachedIndex s
      else dfiFromScan (scanRows s none)
  | some p => dfiFromScan (scanRows s (some p))

/-- `SearchService.searchBM25FromDB`. -/
def searchBM25FromDB (ops : FloatOps) (s : Store) (query : Option (List Char))
    (limit : ℕ) (w : Option (Chunk → Bool)) : List SR :=
  let queryTerms := tokenize query
  if queryTerms = [] then []
  else
    let dfi := buildDocumentFrequencyIndexFromDB s w
    if dfi.totalDocs = 0 then []
    else
      topFinish limit (limit * 3)
        (fun batch =>
          ((batch.filter fun p => hasQueryTerm queryTerms p.2.content).map
            (bm25SR ops dfi queryTerms)).filter fun r => 0 < r.score)
        (batches 1000 (scanRows s w))

/-- `VectorStore.getChunksByIds`, in rowid order, tagged with scan
position. -/
def getChunksByIds (s : Store) (chunkIds : List ℕ) : List TChunk :=
  s.chunks.enum.filter fun p => p.2.id ∈ chunkIds

/-- `SearchService.searchVectorFromDB`.  `processChunk` skips chunks
without a usable embedding and non-positive similarities, and trims the
buffer after each push; the trailing `attachChunkDetails` only adds
content/metadata fields, which the result model does not carry. -/
def searchVectorFromDB (ops : FloatOps) (s : Store)
    (queryEmbedding : Option (List ℚ)) (limit : ℕ)
    (w : Option (Chunk → Bool)) (chunkIdWhitelist : Option (List ℕ)) : List SR :=
  match queryEmbedding with
  | none => []
  | some e =>
      let f : List TChunk → List SR := fun batch =>
        ((batch.filter fun p => embOk p.2).map (vecSR ops (some e))).filter
          fun r => 0 < r.score
      match chunkIdWhitelist with
      | some ids =>
          if 0 < ids.length then
            topFinish limit (limit * 3) f
              ((getChunksByIds s ids).map fun p => [p])
          else
            topFinish limit (limit * 3) f
              ((scanRows s w).map fun p => [p])
      | none =>
          topFinish limit (limit * 3) f
            ((scanRows s w).map fun p => [p])

/-- The `WHERE` clause `embedding IS NOT NULL` that the vector paths
append. -/
def embNotNull (c : Chunk) : Bool :=
  c.embedding.isSome

/-- `SearchService.searchHybridFromDB` with the empty `WHERE` clause
(the form every call site in the claims uses). -/
def searchHybridFromDB (ops : FloatOps) (s : Store) (query : Option (List Char))
    (queryEmbedding : Option (List ℚ)) (limit : ℕ)
    (bm25Weight vectorWeight : ℚ) : List SR :=
  let bm25Results := searchBM25FromDB ops s query (limit * 2) none
  let candidateIds := buildVectorCandidateSet bm25Results limit 4
  let vectorResults := searchVectorFromDB ops s queryEmbedding (limit * 2)
    (some embNotNull) candidateIds
  let normalizedBM25 := normMap bm25Results
  let normalizedVector := normMap vectorResults
  let allChunkIds := setOrder (bm25Results.map (·.id) ++ vectorResults.map (·.id))
  let entries := allChunkIds.map fun cid =>
    (cid, normalizedBM25 cid * bm25Weight + normalizedVector cid * vectorWeight)
  let chunkIds := (entries.map Prod.fst).take (limit * 2)
  hybridAssemble limit entries fun cid =>
    if cid ∈ chunkIds then getChunk s cid else none

/-! ### Document processor and ingestion (`DocumentProcessor.chunkContent`,
`RAGService.processQueueItem`)

`splitIntoSentences` (a regex split) and the embedding provider are taken
as parameters: the properties proved below hold for every splitter and
every embedding outcome, in particular for the source's regex and model.
`uuidv4` id generation is a parameter from chunk ordinal to id. -/

/-- A chunk as produced by `DocumentProcessor.chunkContent` (before the
orchestrator attaches the document id). -/
structure PChunk where
  id : ℕ
  content : List Char
  chunkIndex : ℕ
  embedding : Option (List ℚ)
deriving DecidableEq

/-- `currentChunk.join(' ')`. -/
def joinSp (l : List (List Char)) : List Char :=
  List.intercalate [' '] l

/-- JS `arr.slice(-k)`: the last `k` elements, the whole array when
`k = 0` (since `slice(-0)` is `slice(0)`). -/
def sliceLast (l : List α) (k : ℕ) : List α :=
  if k = 0 then l else l.drop (l.length - k)

/-- The chunk emitted for the accumulated sentences, with
`chunkIndex: chunks.length`. -/
def emitChunk (ids : ℕ → ℕ) (acc : List PChunk) (currentChunk : List (List Char)) : PChunk :=
  { id := ids acc.length
    content := joinSp currentChunk
    chunkIndex := acc.length
    embedding := none }

/-- The sentence-accumulation loop of `chunkContent`: emit when adding
the next sentence would overflow `chunkSize`, seed the next chunk with
the tail overlap `currentChunk.slice(-Math.floor(overlap / 50))`, and
emit the final remainder. -/
def chunkLoop (ids : ℕ → ℕ) (chunkSize overlap : ℕ) :
    List (List Char) → List (List Char) → ℕ → List PChunk → List PChunk
  | [], currentChunk, _, acc =>
      if 0 < currentChunk.length then acc ++ [emitChunk ids acc currentChunk] else acc
  | sentence :: rest, currentChunk, currentLength, acc =>
      if chunkSize < currentLength + sentence.length ∧ 0 < currentChunk.length then
        let acc' := acc ++ [emitChunk ids acc currentChunk]
        let overlapSentences := sliceLast currentChunk (overlap / 50)
        chunkLoop ids chunkSize overlap rest (overlapSentences ++ [sentence])
          ((joinSp overlapSentences).length + sentence.length + 1) acc'
      else
        chunkLoop ids chunkSize overlap rest (currentChunk ++ [sentence])
          (currentLength + sentence.length + 1) acc

/-- The minimum-size filter of `chunkContent` (char count, and token
count via the shared word tokenizer applied to the raw content). -/
def minSizeKeep (minChunkChars minChunkTokens : ℕ) (c : PChunk) : Bool :=
  if 0 < minChunkChars ∧ c.content.length < minChunkChars then false
  else if 0 < minChunkTokens ∧ (words c.content).length < minChunkTokens then false
  else true

/-- `DocumentProcessor.chunkContent`. -/
def chunkContent (split : List Char → List (List Char)) (ids : ℕ → ℕ)
    (embed : List Char → Option (List ℚ)) (content : List Char)
    (chunkSize overlap minChunkChars minChunkTokens maxChunksPerDocument : ℕ) :
    List PChunk :=
  let sentences := split content
  let chunks := chunkLoop ids chunkSize overlap sentences [] 0 []
  let filteredChunks := chunks.filter (minSizeKeep minChunkChars minChunkTokens)
  let limited :=
    if 0 < maxChunksPerDocument ∧ maxChunksPerDocument < filteredChunks.length then
      (filteredChunks.take maxChunksPerDocument).enum.map fun p =>
        { p.2 with chunkIndex := p.1 }
    else filteredChunks
  limited.map fun c => { c with embedding := embed c.content }

/-- The store-mutating part of `RAGService.processQueueItem`: upsert the
document row, delete the document's old chunks, insert the freshly
produced chunks (which carry their `chunkIndex` and the document id).
The call passes only `chunkSize` and `chunkOverlap`, so the minimum-size
and maximum-count parameters take their defaults of 0. -/
def processQueueItem (split : List Char → List (List Char)) (ids : ℕ → ℕ)
    (embed : List Char → Option (List ℚ)) (s : Store) (documentId : ℕ)
    (content : List Char) (chunkSize overlap : ℕ) : Store :=
  let chunks := chunkContent split ids embed content chunkSize overlap 0 0 0
  let s1 := addDocument s documentId
  let s2 := deleteDocumentChunks s1 documentId
  addChunks s2 (chunks.map fun c =>
    { id := c.id
      document_id := documentId
      content := c.content
      embedding := c.embedding
      chunk_index := c.chunkIndex })

/-! ### Consistency predicates for the streaming/in-memory comparison -/

/-- The store invariant the specification maintains for the
document-frequency cache: it is either absent (invalid) or fully
consistent with the current chunk set. -/
def CacheOk (s : Store) : Prop :=
  isDocumentFrequencyIndexCacheValid s = false ∨
    getCachedIndex s = buildDocumentFrequencyIndex s.chunks

/-- The side condition under which the hybrid candidate handoff of the
two code paths agrees: the BM25 candidate set is absent, or some
candidate chunk has a usable embedding, or no chunk has one. -/
def hybridSideOk (ops : FloatOps) (query : Option (List Char)) (s : Store)
    (limit : ℕ) : Prop :=
  match buildVectorCandidateSet (searchBM25 ops query s.chunks (limit * 2)) limit 4 with
  | none => True
  | some cs =>
      (∃ c ∈ s.chunks, embOk c = true ∧ c.id ∈ cs) ∨
        (∀ c ∈ s.chunks, embOk c = false)

/-! ### Concrete data for witnesses and counterexamples -/

/-- A chunk containing the only lexical match of the query `"cat"`,
without an embedding. -/
def chA : Chunk :=
  { id := 1, document_id := 10, content := "cat".toList
    embedding := none, chunk_index := 0 }

/-- An embedded chunk (unit vector along the first axis). -/
def chB : Chunk :=
  { id := 2, document_id := 10, content := "dog".toList
    embedding := some [1, 0], chunk_index := 1 }

/-- An embedded chunk (unit vector at angle, cosine 3/5 against the
query embedding). -/
def chC : Chunk :=
  { id := 3, document_id := 10, content := "bird".toList
    embedding := some [3 / 5, 4 / 5], chunk_index := 2 }

/-- A store whose cache tables are empty (hence invalid). -/
def store0 : Store :=
  { chunks := [chA, chB, chC], dfi := [], stats := [], docs := [10] }

/-- The query `"cat"`. -/
def queryCat : Option (List Char) := some "cat".toList

/-- A unit query embedding along the first axis. -/
def qe0 : Option (List ℚ) := some [1, 0]

/-- Like `chA` but carrying an embedding, so the candidate handoff of
the two hybrid code paths agrees. -/
def chD : Chunk :=
  { id := 1, document_id := 10, content := "cat".toList
    embedding := some [1, 0], chunk_index := 0 }

/-- A store on which the streaming and in-memory hybrid searches agree:
its lexical match is embedded and its cache tables are empty (hence
invalid, forcing the fresh index build). -/
def store1 : Store :=
  { chunks := [chD, chB, chC], dfi := [], stats := [], docs := [10] }

/-- A second lexical match (making the query term's document frequency
high enough that BM25 idf turns negative under the sign-faithful log). -/
def chE : Chunk :=
  { id := 4, document_id := 10, content := "cat dog".toList
    embedding := some [3 / 5, 4 / 5], chunk_index := 1 }

/-- A store on which both hybrid code paths agree with a nonempty
result. -/
def store2 : Store :=
  { chunks := [chD, chE, chC], dfi := [], stats := [], docs := [10] }

/-- Chunks for the stopword-query counterexample: one chunk contains the
stopword `"the"`. -/
def chunks9 : List Chunk :=
  [ { id := 1, document_id := 10, content := "the cat".toList
      embedding := none, chunk_index := 0 },
    { id := 2, document_id := 10, content := "dog".toList
      embedding := none, chunk_index := 1 },
    { id := 3, document_id := 10, content := "bird".toList
      embedding := none, chunk_index := 2 } ]

/-- Modelled from the spec: a conventional English stopword list (the
source code contains no stopword handling; the spec's "all-stopword
query" clause is interpreted against this list, any list containing
"the" yields the same result). -/
def stopwords : List Term :=
  ["the", "a", "an", "and", "of", "to", "in", "is", "it"].map String.toList

/-- A query made of stopwords only (and tokenizing to something). -/
def AllStopwords (query : Option (List Char)) : Prop :=
  tokenize query ≠ [] ∧ ∀ t ∈ tokenize query, t ∈ stopwords

/-! ## Theorems

### Utility lemmas -/

theorem mem_setOrderAux [DecidableEq α] {a : α} :
    ∀ {seen l : List α}, a ∈ setOrderAux seen l ↔ a ∈ l ∧ a ∉ seen := by
  intro seen l
  induction l generalizing seen with
  | nil => simp [setOrderAux]
  | cons b t ih =>
      simp only [setOrderAux]
      by_cases hb : b ∈ seen
      · rw [if_pos hb, ih]
        constructor
        · rintro ⟨h1, h2⟩
          exact ⟨List.mem_cons_of_mem _ h1, h2⟩
        · rintro ⟨h1, h2⟩
          rcases List.mem_cons.mp h1 with rfl | h1
          · exact absurd hb h2
          · exact ⟨h1, h2⟩
      · rw [if_neg hb]
        constructor
        · intro h
          rcases List.mem_cons.mp h with rfl | h
          · exact ⟨List.mem_cons_self _ _, hb⟩
          · obtain ⟨h1, h2⟩ := ih.mp h
            exact ⟨List.mem_cons_of_mem _ h1,
              fun hs => h2 (List.mem_cons_of_mem _ hs)⟩
        · rintro ⟨h1, h2⟩
          rcases List.mem_cons.mp h1 with rfl | h1
          · exact List.mem_cons_self _ _
          · by_cases hab : a = b
            · exact hab ▸ List.mem_cons_self _ _
            · refine List.mem_cons_of_mem _ (ih.mpr ⟨h1, fun hs => ?_⟩)
              rcases List.mem_cons.mp hs with h | h
              · exact hab h
              · exact h2 h

theorem mem_setOrder [DecidableEq α] {a : α} {l : List α} :
    a ∈ setOrder l ↔ a ∈ l := by
  rw [setOrder, mem_setOrderAux]
  simp

theorem setOrderAux_nodup [DecidableEq α] :
    ∀ (seen l : List α), (setOrderAux seen l).Nodup ∧
      ∀ a ∈ setOrderAux seen l, a ∉ seen := by
  intro seen l
  induction l generalizing seen with
  | nil => simp [setOrderAux]
  | cons b t ih =>
      simp only [setOrderAux]
      by_cases hb : b ∈ seen
      · rw [if_pos hb]
        exact ih seen
      · rw [if_neg hb]
        obtain ⟨hnd, hmem⟩ := ih (b :: seen)
        refine ⟨List.nodup_cons.mpr ⟨fun hin => ?_, hnd⟩, ?_⟩
        · exact hmem b hin (List.mem_cons_self _ _)
        · intro a ha
          rcases List.mem_cons.mp ha with rfl | ha
          · exact hb
          · exact fun hs => hmem a ha (List.mem_cons_of_mem _ hs)

theorem setOrder_nodup [DecidableEq α] (l : List α) : (setOrder l).Nodup :=
  (setOrderAux_nodup [] l).1

theorem batchesAux_flatten (n : ℕ) :
    ∀ (fuel : ℕ) (l : List α), l.length ≤ fuel → (batchesAux n fuel l).flatten = l := by
  intro fuel
  induction fuel with
  | zero =>
      intro l hl
      rw [Nat.le_zero, List.length_eq_zero] at hl
      subst hl
      rfl
  | succ fuel ih =>
      intro l hl
      match l with
      | [] => rfl
      | a :: t =>
          rw [batchesAux]
          by_cases hn : n = 0
          · simp [hn]
          · rw [if_neg hn, List.flatten_cons,
              ih (t.drop (n - 1)) (by simp at hl ⊢; omega)]
            obtain ⟨m, rfl⟩ := Nat.exists_eq_succ_of_ne_zero hn
            simp [List.take_succ_cons]

theorem batches_flatten (n : ℕ) (l : List α) : (batches n l).flatten = l :=
  batchesAux_flatten n l.length l le_rfl

/-! ### Document-frequency index lemmas (towards C1) -/

theorem dfGet_bumpDF (m : List (Term × ℕ)) (t t' : Term) :
    dfGet (bumpDF m t) t' = dfGet m t' + if t = t' then 1 else 0 := by
  induction m with
  | nil =>
      by_cases h : t = t' <;> simp [bumpDF, dfGet, List.find?, h]
  | cons p m ih =>
      obtain ⟨k, v⟩ := p
      by_cases hk : k = t
      · subst hk
        by_cases h : k = t'
        · subst h
          simp [bumpDF, dfGet, List.find?]
        · simp only [bumpDF, if_pos rfl]
          simp [dfGet, List.find?, h, if_neg h]
      · simp only [bumpDF, if_neg hk]
        by_cases h : k = t'
        · subst h
          simp [dfGet, List.find?, if_neg, hk]
          intro h'
          exact absurd h'.symm hk
        · simp only [dfGet, List.find?]
          have hd : (decide (k = t')) = false := by simp [h]
          simp only [hd]
          exact ih

theorem dfGet_foldl_bumpDF (L : List Term) (hL : L.Nodup)
    (m : List (Term × ℕ)) (t : Term) :
    dfGet (L.foldl bumpDF m) t = dfGet m t + if t ∈ L then 1 else 0 := by
  induction L generalizing m with
  | nil => simp
  | cons a L ih =>
      obtain ⟨ha, hL⟩ := List.nodup_cons.mp hL
      rw [List.foldl_cons, ih hL, dfGet_bumpDF]
      by_cases h : a = t
      · subst h
        have ht : a ∉ L := ha
        simp [ht]
      · rw [if_neg h]
        by_cases ht : t ∈ L
        · rw [if_pos ht, if_pos (List.mem_cons_of_mem _ ht)]
        · have hm : t ∉ a :: L := by
            intro hm
            rcases List.mem_cons.mp hm with rfl | hm
            · exact h rfl
            · exact ht hm
          rw [if_neg ht, if_neg hm]

theorem dfStep_docFreqs (acc : DFAcc) (content : List Char) (t : Term) :
    dfGet (dfStep acc content).docFreqs t =
      dfGet acc.docFreqs t + if t ∈ tokenize (some content) then 1 else 0 := by
  simp only [dfStep]
  rw [dfGet_foldl_bumpDF _ (setOrder_nodup _)]
  congr 1
  by_cases h : t ∈ tokenize (some content)
  · rw [if_pos (mem_setOrder.mpr h), if_pos h]
  · rw [if_neg (fun hm => h (mem_setOrder.mp hm)), if_neg h]

theorem foldl_dfStep_docFreqs (contents : List (List Char)) (acc : DFAcc) (t : Term) :
    dfGet (contents.foldl dfStep acc).docFreqs t =
      dfGet acc.docFreqs t + contents.countP fun c => decide (t ∈ tokenize (some c)) := by
  induction contents generalizing acc with
  | nil => simp
  | cons c cs ih =>
      rw [List.foldl_cons, ih, dfStep_docFreqs, List.countP_cons]
      by_cases h : t ∈ tokenize (some c) <;> simp [h] <;> omega

theorem foldl_dfStep_chunkLengths (contents : List (List Char)) (acc : DFAcc) :
    (contents.foldl dfStep acc).chunkLengths =
      acc.chunkLengths ++ contents.map fun c => (tokenize (some c)).length := by
  induction contents generalizing acc with
  | nil => simp
  | cons c cs ih =>
      rw [List.foldl_cons, ih]
      simp [dfStep]

theorem foldl_dfStep_count (contents : List (List Char)) (acc : DFAcc) :
    (contents.foldl dfStep acc).count = acc.count + contents.length := by
  induction contents generalizing acc with
  | nil => simp
  | cons c cs ih =>
      rw [List.foldl_cons, ih]
      simp [dfStep]
      omega

theorem buildDocumentFrequencyIndex_docFreqs (chunks : List Chunk) (t : Term) :
    dfGet (buildDocumentFrequencyIndex chunks).docFreqs t =
      chunks.countP fun c => decide (t ∈ tokenize (some c.content)) := by
  simp only [buildDocumentFrequencyIndex]
  have : chunks.foldl (fun a c => dfStep a c.content) ⟨[], [], 0⟩ =
      (chunks.map (·.content)).foldl dfStep ⟨[], [], 0⟩ := by
    rw [List.foldl_map]
  rw [this, foldl_dfStep_docFreqs]
  have h0 : dfGet (⟨[], [], 0⟩ : DFAcc).docFreqs t = 0 := rfl
  rw [h0, Nat.zero_add, List.countP_map]
  rfl

theorem buildDocumentFrequencyIndex_avg (chunks : List Chunk) :
    (buildDocumentFrequencyIndex chunks).avgDocLength =
      avgOfLengths (chunks.map fun c => (tokenize (some c.content)).length) := by
  simp only [buildDocumentFrequencyIndex]
  have : chunks.foldl (fun a c => dfStep a c.content) ⟨[], [], 0⟩ =
      (chunks.map (·.content)).foldl dfStep ⟨[], [], 0⟩ := by
    rw [List.foldl_map]
  rw [this, foldl_dfStep_chunkLengths]
  rw [List.nil_append, List.map_map]
  rfl

theorem buildDocumentFrequencyIndex_totalDocs (chunks : List Chunk) :
    (buildDocumentFrequencyIndex chunks).totalDocs = (chunks.length : ℚ) := rfl

/-! ### The BM25 accumulation as a sum (C1) -/

theorem foldl_add_of_step (L : List α) (f : ℚ → α → ℚ) (g : α → ℚ)
    (h : ∀ s x, f s x = s + g x) : ∀ a, L.foldl f a = a + (L.map g).sum := by
  induction L with
  | nil => simp
  | cons x L ih =>
      intro a
      rw [List.foldl_cons, ih, h]
      simp [add_assoc]

theorem map_sum_filter_of_zero (L : List α) (p : α → Bool) (g : α → ℚ)
    (h : ∀ x, p x = false → g x = 0) :
    (L.map g).sum = ((L.filter p).map g).sum := by
  induction L with
  | nil => simp
  | cons x L ih =>
      by_cases hx : p x
      · rw [List.map_cons, List.sum_cons, List.filter_cons_of_pos hx,
          List.map_cons, List.sum_cons, ih]
      · rw [List.map_cons, List.sum_cons,
          List.filter_cons_of_neg (by simpa using hx), ih,
          h x (by simpa using hx), zero_add]

/-- The per-term BM25 contribution as the specification writes it. -/
def bm25TermFormula (ops : FloatOps) (content : List Char)
    (avgDocLength totalDocs : ℚ) (dfq : List (Term × ℕ)) (t : Term) : ℚ :=
  let tf : ℚ := (tokenize (some content)).count t
  let len : ℚ := (tokenize (some content)).length
  let df : ℚ := dfGet dfq t
  ops.log ((totalDocs - df + 1 / 2) / (df + 1 / 2)) *
    (tf * (bm25K1 + 1) / (tf + bm25K1 * (1 - bm25B + bm25B * (len / avgDocLength))))

theorem calculateBM25Score_eq_sum (ops : FloatOps) (qts : List Term)
    (content : List Char) (avgDocLength totalDocs : ℚ) (dfq : List (Term × ℕ)) :
    calculateBM25Score ops qts content avgDocLength totalDocs dfq =
      (((setOrder qts).filter fun t => 0 < dfGet dfq t).map
        (bm25TermFormula ops content avgDocLength totalDocs dfq)).sum := by
  unfold calculateBM25Score
  have hstep : ∀ (s : ℚ) (t : Term),
      (fun (score : ℚ) (term : Term) =>
        let tf : ℚ := (tokenize (some content)).count term
        let df : ℚ := dfGet dfq term
        if df = 0 then score
        else
          let idf := ops.log ((totalDocs - df + 1 / 2) / (df + 1 / 2))
          let num := tf * (bm25K1 + 1)
          let den := tf + bm25K1 * (1 - bm25B +
            bm25B * (((tokenize (some content)).length : ℚ) / avgDocLength))
          score + idf * (num / den)) s t =
        s + (if (dfGet dfq t : ℚ) = 0 then 0
          else bm25TermFormula ops content avgDocLength totalDocs dfq t) := by
    intro s t
    by_cases h : (dfGet dfq t : ℚ) = 0
    · simp only [if_pos h, add_zero]
    · simp only [if_neg h, bm25TermFormula]
  rw [foldl_add_of_step _ _ _ hstep]
  rw [zero_add,
    map_sum_filter_of_zero _ (fun t => decide (0 < dfGet dfq t)) _
      (by
        intro t ht
        have : ¬ 0 < dfGet dfq t := by simpa using ht
        have hz : dfGet dfq t = 0 := by omega
        simp [hz])]
  refine congrArg List.sum (List.map_congr_left ?_)
  intro t ht
  have hpos : 0 < dfGet dfq t := by
    have := List.of_mem_filter ht
    simpa using this
  have : ((dfGet dfq t : ℚ)) ≠ 0 := by
    exact_mod_cast Nat.pos_iff_ne_zero.mp hpos
  rw [if_neg this]

/-- C1: for every corpus and query, the BM25 score a chunk receives (with
`N`, `df`, `avgLen` drawn from the document-frequency index built over
that same corpus) is the sum, over the unique query terms whose document
frequency is positive, of
`idf * tf*(k1+1) / (tf + k1*(1 - b + b*len/avgLen))` with
`idf = log((N - df + 0.5)/(df + 0.5))`, `k1 = 1.5`, `b = 0.75`, `tf` the
term's frequency in the chunk and `len` the chunk's token count; a term
contained in no chunk has `df = 0` and is filtered out, contributing 0. -/
theorem c1_bm25_score_formula (ops : FloatOps) (chunks : List Chunk)
    (query : Option (List Char)) (c : Chunk) :
    calculateBM25Score ops (tokenize query) c.content
        (buildDocumentFrequencyIndex chunks).avgDocLength
        (buildDocumentFrequencyIndex chunks).totalDocs
        (buildDocumentFrequencyIndex chunks).docFreqs =
      (((setOrder (tokenize query)).filter fun t =>
          0 < chunks.countP fun ch => decide (t ∈ tokenize (some ch.content))).map
        fun t =>
          let tf : ℚ := (tokenize (some c.content)).count t
          let len : ℚ := (tokenize (some c.content)).length
          let df : ℚ := chunks.countP fun ch => decide (t ∈ tokenize (some ch.content))
          let avgLen := avgOfLengths (chunks.map fun ch => (tokenize (some ch.content)).length)
          ops.log (((chunks.length : ℚ) - df + 1 / 2) / (df + 1 / 2)) *
            (tf * (bm25K1 + 1) /
              (tf + bm25K1 * (1 - bm25B + bm25B * (len / avgLen))))).sum := by
  rw [calculateBM25Score_eq_sum]
  have hfilter :
      ((setOrder (tokenize query)).filter fun t =>
          0 < dfGet (buildDocumentFrequencyIndex chunks).docFreqs t) =
        ((setOrder (tokenize query)).filter fun t =>
          0 < chunks.countP fun ch => decide (t ∈ tokenize (some ch.content))) := by
    apply List.filter_congr
    intro t _
    rw [buildDocumentFrequencyIndex_docFreqs]
  rw [hfilter]
  refine congrArg List.sum (List.map_congr_left ?_)
  intro t _
  simp only [bm25TermFormula, buildDocumentFrequencyIndex_docFreqs,
    buildDocumentFrequencyIndex_totalDocs, buildDocumentFrequencyIndex_avg]

/-! ### BM25 monotonicity in term frequency (C8) -/

theorem logOk_signLog : LogOk signLog := by
  refine ⟨?_, ?_, ?_, ?_⟩
  · intro x _ h1
    rw [signLog, if_pos h1]
    norm_num
  · intro x h1
    rw [signLog, if_neg (not_lt.mpr h1.le), if_neg (by linarith : ¬ x = 1)]
    norm_num
  · rw [signLog, if_neg (lt_irrefl 1), if_pos rfl]
  · intro x y _ hxy
    unfold signLog
    by_cases hx : x < 1
    · by_cases hy : y < 1
      · simp [hx, hy]
      · by_cases hy1 : y = 1 <;> simp [hx, hy, hy1] <;> norm_num
    · have hx1 : 1 ≤ x := not_lt.mp hx
      have hy : ¬ y < 1 := not_lt.mpr (le_trans hx1 hxy)
      by_cases hxe : x = 1
      · by_cases hye : y = 1 <;> simp [hx, hy, hxe, hye] <;> norm_num
      · have hye : ¬ y = 1 := by
          intro he
          exact hxe (le_antisymm (he ▸ hxy) hx1)
        simp [hx, hy, hxe, hye]

theorem bm25_frac_mono {t1 t2 K c : ℚ} (h0 : 0 ≤ t1) (h12 : t1 ≤ t2)
    (hK : 0 < K) (hc : 0 ≤ c) :
    t1 * c / (t1 + K) ≤ t2 * c / (t2 + K) := by
  have hd1 : 0 < t1 + K := by linarith
  have hd2 : 0 < t2 + K := by linarith
  rw [div_le_div_iff hd1 hd2]
  nlinarith [mul_nonneg (mul_nonneg hc hK.le) (sub_nonneg.mpr h12)]

theorem calculateBM25Score_single (ops : FloatOps) (t : Term)
    (content : List Char) (avgDocLength totalDocs : ℚ) (dfq : List (Term × ℕ)) :
    calculateBM25Score ops [t] content avgDocLength totalDocs dfq =
      if 0 < dfGet dfq t then bm25TermFormula ops content avgDocLength totalDocs dfq t
      else 0 := by
  rw [calculateBM25Score_eq_sum]
  have hso : setOrder [t] = [t] := by simp [setOrder, setOrderAux]
  rw [hso]
  by_cases h : 0 < dfGet dfq t
  · rw [if_pos h, List.filter_cons_of_pos (by simpa using h)]
    simp
  · rw [if_neg h, List.filter_cons_of_neg (by simpa using h)]
    simp

/-- C8 (amended): with non-negative corpus statistics and a term whose
idf is non-negative (`2·df ≤ N` under a log with the sign behaviour of
`Math.log`), the BM25 score of a single-term query is monotonically
non-decreasing in the term's frequency, for fixed chunk token length,
document-frequency table and corpus statistics.  Without the idf
hypothesis the claim is false (see the counterexample). -/
theorem c8_bm25_monotone_amended (ops : FloatOps) (t : Term)
    (c1 c2 : List Char) (avgDocLength totalDocs : ℚ) (dfq : List (Term × ℕ))
    (havg : 0 ≤ avgDocLength)
    (hlen : (tokenize (some c1)).length = (tokenize (some c2)).length)
    (htf : (tokenize (some c1)).count t ≤ (tokenize (some c2)).count t)
    (hidf : 0 ≤ ops.log ((totalDocs - (dfGet dfq t : ℚ) + 1 / 2) /
      ((dfGet dfq t : ℚ) + 1 / 2))) :
    calculateBM25Score ops [t] c1 avgDocLength totalDocs dfq ≤
      calculateBM25Score ops [t] c2 avgDocLength totalDocs dfq := by
  rw [calculateBM25Score_single, calculateBM25Score_single]
  by_cases h : 0 < dfGet dfq t
  · rw [if_pos h, if_pos h]
    unfold bm25TermFormula
    have hdiv : 0 ≤ ((tokenize (some c1)).length : ℚ) / avgDocLength :=
      div_nonneg (Nat.cast_nonneg _) havg
    have hK : 0 < bm25K1 * (1 - bm25B +
        bm25B * (((tokenize (some c1)).length : ℚ) / avgDocLength)) := by
      unfold bm25K1 bm25B
      unfold bm25B at hdiv
      nlinarith
    rw [← hlen]
    refine mul_le_mul_of_nonneg_left ?_ hidf
    exact bm25_frac_mono (Nat.cast_nonneg _) (by exact_mod_cast htf) hK
      (by norm_num [bm25K1])
  · rw [if_neg h, if_neg h]

set_option maxRecDepth 100000 in
unseal Rat.add Rat.sub Rat.mul Rat.inv in
/-- C8 witness: a concrete instance (query term `"a"`, chunks `"a b"` and
`"a a"`, `df = 1`, `N = 3`, `avgLen = 2`) where the hypotheses hold and
the amended monotonicity applies. -/
theorem c8_bm25_monotone_amended_witness :
    (0 : ℚ) ≤ 2 ∧
    (tokenize (some "a b".toList)).length = (tokenize (some "a a".toList)).length ∧
    (tokenize (some "a b".toList)).count "a".toList ≤
      (tokenize (some "a a".toList)).count "a".toList ∧
    0 ≤ ops0.log (((3 : ℚ) - (dfGet [("a".toList, 1)] "a".toList : ℚ) + 1 / 2) /
      ((dfGet [("a".toList, 1)] "a".toList : ℚ) + 1 / 2)) ∧
    calculateBM25Score ops0 ["a".toList] "a b".toList 2 3 [("a".toList, 1)] ≤
      calculateBM25Score ops0 ["a".toList] "a a".toList 2 3 [("a".toList, 1)] :=
  ⟨by norm_num, by decide, by decide, by decide,
    c8_bm25_monotone_amended ops0 "a".toList "a b".toList "a a".toList 2 3
      [("a".toList, 1)] (by norm_num) (by decide) (by decide) (by decide)⟩

set_option maxRecDepth 100000 in
unseal Rat.add Rat.sub Rat.mul Rat.inv in
/-- C8 counterexample: the claim as stated — monotonicity for every
document-frequency table — is false: with `df = N = 1` the idf is the
log of `1/3 < 1`, which is negative for any log with the sign behaviour
of `Math.log` (`ln(1/3) ≈ -1.099`), so the score strictly decreases as
tf grows from 1 (`"a b"`) to 2 (`"a a"`). -/
theorem c8_bm25_monotone_counterexample :
    ¬ (∀ (ops : FloatOps), LogOk ops.log →
        ∀ (t : Term) (c1 c2 : List Char) (avgDocLength totalDocs : ℚ)
          (dfq : List (Term × ℕ)),
          0 ≤ avgDocLength →
          (tokenize (some c1)).length = (tokenize (some c2)).length →
          (tokenize (some c1)).count t ≤ (tokenize (some c2)).count t →
          calculateBM25Score ops [t] c1 avgDocLength totalDocs dfq ≤
            calculateBM25Score ops [t] c2 avgDocLength totalDocs dfq) := by
  intro h
  have h2 := h ops0 logOk_signLog "a".toList "a b".toList "a a".toList 2 1
    [("a".toList, 1)] (by norm_num) (by decide) (by decide)
  revert h2
  decide

/-! ### Empty / stopword queries (C9) -/

/-- C9 (amended): an empty query, a non-string query, and more generally
any query whose tokenization is empty yield an empty result set from the
lexical algorithms (in-memory BM25 and TF-IDF and streaming BM25),
without error.  The all-stopword clause of the original claim is false:
the code has no stopword handling (see the counterexample). -/
theorem c9_empty_query_amended :
    tokenize none = [] ∧ tokenize (some []) = [] ∧
    ∀ (ops : FloatOps) (chunks : List Chunk) (s : Store) (limit : ℕ)
      (query : Option (List Char)) (w : Option (Chunk → Bool)),
      tokenize query = [] →
        searchBM25 ops query chunks limit = [] ∧
        searchTFIDF ops query chunks limit = [] ∧
        searchBM25FromDB ops s query limit w = [] := by
  refine ⟨rfl, rfl, ?_⟩
  intro ops chunks s limit query w h
  refine ⟨?_, ?_, ?_⟩
  · rw [searchBM25, h]
    simp
  · rw [searchTFIDF, h]
    simp
  · rw [searchBM25FromDB, h]
    simp

/-- C9 witness: the amended theorem applied to the non-string query. -/
theorem c9_empty_query_amended_witness :
    tokenize (none : Option (List Char)) = [] ∧
    (searchBM25 ops0 none store0.chunks 10 = [] ∧
      searchTFIDF ops0 none store0.chunks 10 = [] ∧
      searchBM25FromDB ops0 store0 none 10 none = []) :=
  ⟨rfl, c9_empty_query_amended.2.2 ops0 store0.chunks store0 10 none none rfl⟩

set_option maxRecDepth 1000000 in
unseal Rat.add Rat.sub Rat.mul Rat.inv in
/-- C9 counterexample: a query consisting only of the stopword `"the"`
against a corpus one of whose chunks contains `"the"` returns a
non-empty BM25 result set (the code performs no stopword filtering;
with `N = 3`, `df = 1` the idf is the log of `5/3 > 1`, positive for
`Math.log`). -/
theorem c9_stopword_counterexample :
    AllStopwords (some "the".toList) ∧
      searchBM25 ops0 (some "the".toList) chunks9 2 ≠ [] := by
  constructor
  · exact ⟨by decide, by decide⟩
  · decide

/-! ### Cache invalidation (C7) -/

/-- C7: every chunk-mutating store write — inserting chunks, deleting a
document's chunks, deleting a document with its chunks, clearing the
store — leaves both document-frequency cache tables empty, so
immediately afterwards the cache-validity check reports the cache as
invalid. -/
theorem c7_writes_invalidate_cache (s : Store) (newChunks : List Chunk)
    (documentId : ℕ) :
    ((addChunks s newChunks).dfi = [] ∧ (addChunks s newChunks).stats = [] ∧
      isDocumentFrequencyIndexCacheValid (addChunks s newChunks) = false) ∧
    ((deleteDocumentChunks s documentId).dfi = [] ∧
      (deleteDocumentChunks s documentId).stats = [] ∧
      isDocumentFrequencyIndexCacheValid (deleteDocumentChunks s documentId) = false) ∧
    ((deleteDocument s documentId).dfi = [] ∧
      (deleteDocument s documentId).stats = [] ∧
      isDocumentFrequencyIndexCacheValid (deleteDocument s documentId) = false) ∧
    ((clearStore s).dfi = [] ∧ (clearStore s).stats = [] ∧
      isDocumentFrequencyIndexCacheValid (clearStore s) = false) := by
  refine ⟨⟨rfl, rfl, ?_⟩, ⟨rfl, rfl, ?_⟩, ⟨rfl, rfl, ?_⟩, ⟨rfl, rfl, ?_⟩⟩ <;> rfl

/-! ### Re-ingestion (C6) -/

theorem chunkLoop_indices (ids : ℕ → ℕ) (cs ov : ℕ) :
    ∀ (sentences cur : List (List Char)) (curLen : ℕ) (acc : List PChunk),
      acc.map (·.chunkIndex) = List.range acc.length →
      (chunkLoop ids cs ov sentences cur curLen acc).map (·.chunkIndex) =
        List.range (chunkLoop ids cs ov sentences cur curLen acc).length := by
  intro sentences
  induction sentences with
  | nil =>
      intro cur curLen acc hacc
      rw [chunkLoop]
      by_cases h : 0 < cur.length
      · rw [if_pos h]
        simp only [List.map_append, List.length_append, hacc, emitChunk,
          List.map_cons, List.map_nil, List.length_cons, List.length_nil]
        rw [List.range_succ]
      · rw [if_neg h]
        exact hacc
  | cons sentence rest ih =>
      intro cur curLen acc hacc
      rw [chunkLoop]
      by_cases h : cs < curLen + sentence.length ∧ 0 < cur.length
      · rw [if_pos h]
        apply ih
        simp only [List.map_append, List.length_append, hacc, emitChunk,
          List.map_cons, List.map_nil, List.length_cons, List.length_nil]
        rw [List.range_succ]
      · rw [if_neg h]
        exact ih _ _ _ hacc

theorem minSizeKeep_zero (c : PChunk) : minSizeKeep 0 0 c = true := by
  rw [minSizeKeep, if_neg, if_neg]
  · rintro ⟨h, -⟩
    exact absurd h (lt_irrefl 0)
  · rintro ⟨h, -⟩
    exact absurd h (lt_irrefl 0)

theorem chunkContent_zero (split : List Char → List (List Char)) (ids : ℕ → ℕ)
    (embed : List Char → Option (List ℚ)) (content : List Char) (cs ov : ℕ) :
    chunkContent split ids embed content cs ov 0 0 0 =
      (chunkLoop ids cs ov (split content) [] 0 []).map
        fun c => { c with embedding := embed c.content } := by
  rw [chunkContent]
  have h1 : (chunkLoop ids cs ov (split content) [] 0 []).filter (minSizeKeep 0 0) =
      chunkLoop ids cs ov (split content) [] 0 [] :=
    List.filter_eq_self.mpr fun c _ => minSizeKeep_zero c
  simp only [h1]
  rw [if_neg]
  rintro ⟨h, -⟩
  exact absurd h (lt_irrefl 0)

theorem chunkContent_indices (split : List Char → List (List Char)) (ids : ℕ → ℕ)
    (embed : List Char → Option (List ℚ)) (content : List Char) (cs ov : ℕ) :
    (chunkContent split ids embed content cs ov 0 0 0).map (·.chunkIndex) =
      List.range (chunkContent split ids embed content cs ov 0 0 0).length := by
  rw [chunkContent_zero]
  have hbase : (chunkLoop ids cs ov (split content) [] 0 []).map (·.chunkIndex) =
      List.range (chunkLoop ids cs ov (split content) [] 0 []).length :=
    chunkLoop_indices ids cs ov (split content) [] 0 [] rfl
  rw [List.map_map, List.length_map]
  exact hbase

/-- C6: re-ingesting a document twice (through the queue processor,
which deletes the document's chunks before inserting the new
generation) leaves exactly the second generation in the store: the
document's chunks are the chunks the second ingestion produces alone,
their ordinals are contiguous from 0, and their count is the second
ingestion's chunk count.  This holds for every sentence splitter, id
generator, embedding outcome, prior store state and pair of contents. -/
theorem c6_reingest_replaces_chunks (split : List Char → List (List Char))
    (ids1 ids2 : ℕ → ℕ) (embed : List Char → Option (List ℚ)) (s : Store)
    (d : ℕ) (c1 c2 : List Char) (cs ov : ℕ) :
    ((processQueueItem split ids2 embed
        (processQueueItem split ids1 embed s d c1 cs ov) d c2 cs ov).chunks.filter
      fun c => c.document_id = d) =
      ((chunkContent split ids2 embed c2 cs ov 0 0 0).map fun c =>
        { id := c.id, document_id := d, content := c.content
          embedding := c.embedding, chunk_index := c.chunkIndex }) ∧
    (((processQueueItem split ids2 embed
        (processQueueItem split ids1 embed s d c1 cs ov) d c2 cs ov).chunks.filter
      fun c => c.document_id = d).map (·.chunk_index)) =
      List.range ((processQueueItem split ids2 embed
        (processQueueItem split ids1 embed s d c1 cs ov) d c2 cs ov).chunks.filter
          fun c => c.document_id = d).length ∧
    ((processQueueItem split ids2 embed
        (processQueueItem split ids1 embed s d c1 cs ov) d c2 cs ov).chunks.filter
      fun c => c.document_id = d).length =
      (chunkContent split ids2 embed c2 cs ov 0 0 0).length := by
  have key : ∀ (s' : Store) (idsK : ℕ → ℕ) (cK : List Char),
      ((processQueueItem split idsK embed s' d cK cs ov).chunks.filter
        fun c => c.document_id = d) =
        ((chunkContent split idsK embed cK cs ov 0 0 0).map fun c =>
          { id := c.id, document_id := d, content := c.content
            embedding := c.embedding, chunk_index := c.chunkIndex }) := by
    intro s' idsK cK
    simp only [processQueueItem, addChunks, deleteDocumentChunks, addDocument,
      invalidateDocumentFrequencyIndex]
    by_cases hd : d ∈ s'.docs <;>
      · simp only [hd, if_pos, if_neg, ite_true, ite_false, reduceIte]
        rw [List.filter_append]
        have h1 : (s'.chunks.filter fun c => c.document_id ≠ d).filter
            (fun c => c.document_id = d) = [] := by
          rw [List.filter_filter]
          apply List.filter_eq_nil.mpr
          intro c _
          simp only [Bool.and_eq_true, decide_eq_true_eq, ne_eq]
          rintro ⟨h2, h3⟩
          exact h3 h2
        rw [h1, List.nil_append]
        apply List.filter_eq_self.mpr
        intro c hc
        obtain ⟨pc, _, rfl⟩ := List.mem_map.mp hc
        simp
  refine ⟨key _ ids2 c2, ?_, ?_⟩
  · rw [key _ ids2 c2, List.map_map, List.length_map]
    exact chunkContent_indices split ids2 embed c2 cs ov
  · rw [key _ ids2 c2, List.length_map]

/-! ### The streaming BM25 pre-filter (C5)

Every token the tokenizer produces is a substring of the lowercased
content, so a chunk rejected by `hasQueryTerm` has `tf = 0` for every
query term and hence BM25 score 0. -/

theorem wordsAux_infix (t : List Char) :
    ∀ (l acc : List Char), t ∈ wordsAux acc l → t <:+: (acc.reverse ++ l) := by
  intro l
  induction l with
  | nil =>
      intro acc ht
      rw [wordsAux] at ht
      by_cases h : acc = []
      · rw [if_pos h] at ht
        exact absurd ht (List.not_mem_nil t)
      · rw [if_neg h] at ht
        rcases List.mem_singleton.mp ht with rfl
        rw [List.append_nil]
  | cons c cs ih =>
      intro acc ht
      rw [wordsAux] at ht
      by_cases hw : isWordChar c
      · rw [if_pos hw] at ht
        have := ih (c :: acc) ht
        rwa [List.reverse_cons, List.append_assoc, List.singleton_append] at this
      · rw [if_neg hw] at ht
        by_cases h : acc = []
        · rw [if_pos h] at ht
          subst h
          have := ih [] ht
          rw [List.reverse_nil, List.nil_append] at this ⊢
          exact this.trans (List.suffix_cons c cs).isInfix
        · rw [if_neg h] at ht
          rcases List.mem_cons.mp ht with rfl | ht
          · exact ((List.prefix_append acc.reverse (c :: cs)).isInfix)
          · have := ih [] ht
            rw [List.reverse_nil, List.nil_append] at this
            exact (this.trans (List.suffix_cons c cs).isInfix).trans
              ((List.suffix_append acc.reverse (c :: cs)).isInfix)

theorem wordsAux_wordChar (t : List Char) :
    ∀ (l acc : List Char), t ∈ wordsAux acc l →
      (∀ c ∈ acc, isWordChar c = true) → ∀ c ∈ t, isWordChar c = true := by
  intro l
  induction l with
  | nil =>
      intro acc ht hacc
      rw [wordsAux] at ht
      by_cases h : acc = []
      · rw [if_pos h] at ht
        exact absurd ht (List.not_mem_nil t)
      · rw [if_neg h] at ht
        rcases List.mem_singleton.mp ht with rfl
        intro c hc
        exact hacc c (List.mem_reverse.mp hc)
  | cons ch cs ih =>
      intro acc ht hacc
      rw [wordsAux] at ht
      by_cases hw : isWordChar ch
      · rw [if_pos hw] at ht
        refine ih (ch :: acc) ht ?_
        intro c hc
        rcases List.mem_cons.mp hc with rfl | hc
        · exact hw
        · exact hacc c hc
      · rw [if_neg hw] at ht
        by_cases h : acc = []
        · rw [if_pos h] at ht
          exact ih [] ht (by intro c hc; exact absurd hc (List.not_mem_nil c))
        · rw [if_neg h] at ht
          rcases List.mem_cons.mp ht with rfl | ht
          · intro c hc
            exact hacc c (List.mem_reverse.mp hc)
          · exact ih [] ht (by intro c hc; exact absurd hc (List.not_mem_nil c))

theorem isWordChar_toLower_ne_space (c : Char) (h : isWordChar c = true) :
    Char.toLower c ≠ ' ' := by
  intro he
  unfold Char.toLower at he
  by_cases hb : c.toNat ≥ 65 ∧ c.toNat ≤ 90
  · rw [if_pos hb] at he
    have hv : (c.toNat + 32).isValidChar := by
      left
      omega
    rw [Char.ofNat, dif_pos hv] at he
    have h32 : (Char.ofNatAux (c.toNat + 32) hv).toNat = c.toNat + 32 := rfl
    have := congrArg Char.toNat he
    rw [h32] at this
    have hsp : (' ' : Char).toNat = 32 := rfl
    omega
  · rw [if_neg hb] at he
    subst he
    rw [isWordChar] at h
    simp [Char.isAlphanum, Char.isAlpha, Char.isDigit, Char.isLower,
      Char.isUpper] at h

/-- Transfer an all-word-character infix of `map f s` to `map g s`, when
`f` and `g` agree except that `f` may additionally send characters to a
space. -/
theorem infix_map_cancel {f g : Char → Char}
    (hfg : ∀ c, f c = g c ∨ f c = ' ') (u s : List Char)
    (hu : u <:+: s.map f) (hw : ∀ ch ∈ u, ch ≠ ' ') : u <:+: s.map g := by
  obtain ⟨p, q, hpq⟩ := hu
  have h1 : s.map f = p ++ (u ++ q) := by rw [← hpq, List.append_assoc]
  obtain ⟨s1, s23, rfl, hp, h23⟩ := List.map_eq_append_iff.mp h1
  obtain ⟨s2, s3, rfl, hu2, hq⟩ := List.map_eq_append_iff.mp h23
  have hg2 : s2.map g = u := by
    rw [← hu2]
    apply List.map_congr_left
    intro c hc
    rcases hfg c with h | h
    · exact h.symm
    · exfalso
      have : f c ∈ u := by
        rw [← hu2]
        exact List.mem_map_of_mem f hc
      exact hw (f c) this h
  exact ⟨s1.map g, s3.map g, by rw [← hg2]; simp⟩

/-- Every token of `tokenize` is an infix of the lowercased content. -/
theorem tokenize_infix_lower (t : Term) (s : List Char)
    (ht : t ∈ tokenize (some s)) : t <:+: s.map Char.toLower := by
  rw [tokenize] at ht
  by_cases hs : s = []
  · rw [if_pos hs] at ht
    exact absurd ht (List.not_mem_nil t)
  · rw [if_neg hs] at ht
    have ht' := List.mem_of_mem_filter ht
    obtain ⟨w, hw, rfl⟩ := List.mem_map.mp ht'
    have hinf : w <:+: normalizeWs s := wordsAux_infix w (normalizeWs s) [] hw
    have hinf2 : w.map Char.toLower <:+: (normalizeWs s).map Char.toLower :=
      List.IsInfix.map Char.toLower hinf
    have hcomp : (normalizeWs s).map Char.toLower =
        s.map fun c => Char.toLower (if isNormSpaceChar c then ' ' else c) := by
      rw [normalizeWs, List.map_map]
      rfl
    rw [hcomp] at hinf2
    refine infix_map_cancel ?_ _ s hinf2 ?_
    · intro c
      by_cases hn : isNormSpaceChar c
      · right
        rw [if_pos hn]
        rfl
      · left
        rw [if_neg hn]
    · intro ch hch
      obtain ⟨c0, hc0, rfl⟩ := List.mem_map.mp hch
      have hwc : isWordChar c0 = true :=
        wordsAux_wordChar w (normalizeWs s) [] hw
          (by intro c hc; exact absurd hc (List.not_mem_nil c)) c0 hc0
      exact isWordChar_toLower_ne_space c0 hwc

/-- A chunk whose lowercased content contains no query term has BM25
score 0 (for any index statistics). -/
theorem bm25_score_zero_of_no_match (ops : FloatOps) (queryTerms : List Term)
    (content : List Char) (avgDocLength totalDocs : ℚ)
    (dfq : List (Term × ℕ)) (hpre : hasQueryTerm queryTerms content = false) :
    calculateBM25Score ops queryTerms content avgDocLength totalDocs dfq = 0 := by
  rw [calculateBM25Score_eq_sum]
  apply List.sum_eq_zero
  intro x hx
  obtain ⟨term, hterm, rfl⟩ := List.mem_map.mp hx
  have htm : term ∈ setOrder queryTerms := List.mem_of_mem_filter hterm
  have hnotin : ¬ (term <:+: content.map Char.toLower) := by
    intro hinf
    rw [hasQueryTerm] at hpre
    have := List.any_eq_false.mp hpre term htm
    simpa [hinf] using this
  have htf : (tokenize (some content)).count term = 0 := by
    rw [List.count_eq_zero]
    intro hmem
    exact hnotin (tokenize_infix_lower term content hmem)
  rw [bm25TermFormula]
  simp only [htf, Nat.cast_zero, zero_mul, zero_div, zero_add, mul_zero]

/-- Dropping the `hasQueryTerm` pre-filter does not change the
positive-score BM25 stream. -/
theorem bm25_prefilter_stream_eq (ops : FloatOps) (dfi : DFIndex)
    (queryTerms : List Term) (rows : List TChunk) :
    (((rows.filter fun p => hasQueryTerm queryTerms p.2.content).map
        (bm25SR ops dfi queryTerms)).filter fun r => 0 < r.score) =
      ((rows.map (bm25SR ops dfi queryTerms)).filter fun r => 0 < r.score) := by
  induction rows with
  | nil => rfl
  | cons p rows ih =>
      by_cases hp : hasQueryTerm queryTerms p.2.content
      · simp only [List.filter_cons, List.map_cons, hp, if_true, ih]
      · have hp' : hasQueryTerm queryTerms p.2.content = false := by
          simpa using hp
        have hz : (bm25SR ops dfi queryTerms p).score = 0 :=
          bm25_score_zero_of_no_match ops queryTerms p.2.content dfi.avgDocLength
            dfi.totalDocs dfi.docFreqs hp'
        have hL : List.filter (fun q => hasQueryTerm queryTerms q.2.content)
            (p :: rows) =
            List.filter (fun q => hasQueryTerm queryTerms q.2.content) rows := by
          rw [List.filter_cons]
          simp [hp']
        rw [hL, ih, List.map_cons, List.filter_cons]
        simp [hz]

/-- C5: the streaming BM25 pre-filter is correctness-preserving.  If a
chunk's lowercased content contains no query term as a substring
(`hasQueryTerm` is false) its BM25 score is 0 for any index, and
consequently the pre-filtered positive-score stream of
`searchBM25FromDB` equals the unfiltered one. -/
theorem c5_prefilter_preserves_results :
    (∀ (ops : FloatOps) (queryTerms : List Term) (content : List Char)
        (avgDocLength totalDocs : ℚ) (dfq : List (Term × ℕ)),
      hasQueryTerm queryTerms content = false →
      calculateBM25Score ops queryTerms content avgDocLength totalDocs dfq = 0) ∧
    (∀ (ops : FloatOps) (dfi : DFIndex) (queryTerms : List Term)
        (rows : List TChunk),
      (((rows.filter fun p => hasQueryTerm queryTerms p.2.content).map
          (bm25SR ops dfi queryTerms)).filter fun r => 0 < r.score) =
        ((rows.map (bm25SR ops dfi queryTerms)).filter fun r => 0 < r.score)) :=
  ⟨bm25_score_zero_of_no_match, bm25_prefilter_stream_eq⟩

set_option maxRecDepth 100000 in
unseal Rat.add Rat.sub Rat.mul Rat.inv in
/-- C5 witness: a concrete chunk (`"dog"`) containing no query term
(query `"cat"`), whose BM25 score is 0. -/
theorem c5_prefilter_preserves_results_witness :
    hasQueryTerm (tokenize queryCat) "dog".toList = false ∧
      calculateBM25Score ops0 (tokenize queryCat) "dog".toList 1 3
        [("cat".toList, 1)] = 0 :=
  ⟨by decide,
    c5_prefilter_preserves_results.1 ops0 (tokenize queryCat) "dog".toList 1 3
      [("cat".toList, 1)] (by decide)⟩

/-! ### The in-loop top-K maintenance is canonical

Key fact for the streaming/in-memory comparison: however a loop batches
its input and whenever it trims its buffer to the best `limit`, the
final sort-and-truncate gives the sort of the full scored stream,
truncated. -/

theorem mergeSR_nil_left (v : List SR) : mergeSR [] v = v := by
  simp [mergeSR]

theorem mergeSR_nil_right (u : List SR) : mergeSR u [] = u := by
  cases u with
  | nil => simp [mergeSR]
  | cons a u => simp [mergeSR]

theorem mergeSR_cons_cons (a b : SR) (u v : List SR) :
    mergeSR (a :: u) (b :: v) =
      if srLE a b then a :: mergeSR u (b :: v) else b :: mergeSR (a :: u) v := by
  rw [mergeSR]

theorem mergeSR_perm : ∀ (u v : List SR), List.Perm (mergeSR u v) (u ++ v) := by
  intro u v
  induction u, v using mergeSR.induct with
  | case1 v =>
      rw [mergeSR_nil_left, List.nil_append]
  | case2 u h =>
      rw [mergeSR_nil_right, List.append_nil]
  | case3 a u b v hle ih =>
      rw [mergeSR_cons_cons, if_pos hle, List.cons_append]
      exact ih.cons a
  | case4 a u b v hle ih =>
      rw [mergeSR_cons_cons, if_neg hle]
      exact (ih.cons b).trans List.perm_middle.symm

theorem mergeSR_sorted : ∀ (u v : List SR), List.Sorted srLE u →
    List.Sorted srLE v → List.Sorted srLE (mergeSR u v) := by
  intro u v
  induction u, v using mergeSR.induct with
  | case1 v =>
      intro _ hv
      rw [mergeSR_nil_left]
      exact hv
  | case2 u h =>
      intro hu _
      rw [mergeSR_nil_right]
      exact hu
  | case3 a u b v hle ih =>
      intro hu hv
      rw [mergeSR_cons_cons, if_pos hle]
      rw [List.sorted_cons] at hu ⊢
      refine ⟨?_, ih hu.2 hv⟩
      intro x hx
      have hx' := (mergeSR_perm u (b :: v)).mem_iff.mp hx
      rcases List.mem_append.mp hx' with hx' | hx'
      · exact hu.1 x hx'
      · rcases List.mem_cons.mp hx' with rfl | hx'
        · exact hle
        · exact Trans.trans hle ((List.sorted_cons.mp hv).1 x hx')
  | case4 a u b v hle ih =>
      intro hu hv
      rw [mergeSR_cons_cons, if_neg hle]
      have hba : srLE b a := (IsTotal.total (r := srLE) a b).resolve_left hle
      rw [List.sorted_cons] at hv ⊢
      refine ⟨?_, ih hu hv.2⟩
      intro x hx
      have hx' := (mergeSR_perm (a :: u) v).mem_iff.mp hx
      rcases List.mem_append.mp hx' with hx' | hx'
      · rcases List.mem_cons.mp hx' with rfl | hx'
        · exact hba
        · exact Trans.trans hba ((List.sorted_cons.mp hu).1 x hx')
      · exact hv.1 x hx'

theorem sortR_perm (l : List SR) : List.Perm (sortR l) l :=
  List.perm_insertionSort srLE l

theorem sortR_sorted (l : List SR) : List.Sorted srLE (sortR l) :=
  List.sorted_insertionSort srLE l

theorem sortR_eq_of_perm_sorted {l m : List SR} (hp : List.Perm l m)
    (hm : List.Sorted srLE m) : sortR l = m :=
  List.eq_of_perm_of_sorted ((sortR_perm l).trans hp) (sortR_sorted l) hm

theorem sortR_append_merge (u v : List SR) :
    sortR (u ++ v) = mergeSR (sortR u) (sortR v) :=
  sortR_eq_of_perm_sorted
    ((List.Perm.append (sortR_perm u).symm (sortR_perm v).symm).trans
      (mergeSR_perm (sortR u) (sortR v)).symm)
    (mergeSR_sorted _ _ (sortR_sorted u) (sortR_sorted v))

theorem sortR_of_sorted {l : List SR} (h : List.Sorted srLE l) : sortR l = l :=
  sortR_eq_of_perm_sorted (List.Perm.refl l) h

theorem sorted_take {l : List SR} (h : List.Sorted srLE l) (k : ℕ) :
    List.Sorted srLE (l.take k) :=
  h.sublist (List.take_sublist k l)

theorem take_mergeSR_left : ∀ (n : ℕ) (u v : List SR),
    u.length + v.length ≤ n → ∀ (k : ℕ),
    (mergeSR u v).take k = (mergeSR (u.take k) v).take k := by
  intro n
  induction n with
  | zero =>
      intro u v hn k
      have hu : u = [] := by
        cases u with
        | nil => rfl
        | cons a u => simp at hn
      subst hu
      rw [List.take_nil]
  | succ n ih =>
      intro u v hn k
      match u, v with
      | [], v => rw [List.take_nil]
      | a :: u, [] =>
          rw [mergeSR_nil_right, mergeSR_nil_right, List.take_take,
            Nat.min_self]
      | a :: u, b :: v =>
          match k with
          | 0 => rw [List.take_zero, List.take_zero]
          | k + 1 =>
              rw [mergeSR_cons_cons]
              by_cases hle : srLE a b
              · rw [if_pos hle, List.take_cons_succ, List.take_cons_succ,
                  mergeSR_cons_cons, if_pos hle, List.take_cons_succ]
                congr 1
                exact ih u (b :: v) (by simp at hn ⊢; omega) k
              · rw [if_neg hle, List.take_cons_succ, List.take_cons_succ,
                  mergeSR_cons_cons, if_neg hle, List.take_cons_succ]
                congr 1
                rw [ih (a :: u) v (by simp at hn ⊢; omega) k,
                  ih (a :: u.take k) v
                    (by
                      have h1 : (u.take k).length ≤ u.length :=
                        List.length_take_le' k u
                      simp at hn ⊢
                      omega) k]
                congr 2
                match k with
                | 0 => rw [List.take_zero, List.take_zero]
                | m + 1 =>
                    rw [List.take_cons_succ, List.take_cons_succ,
                      List.take_take]
                    congr 2
                    omega

/-- Trimming a buffer to its best `k` does not change the best `k` of
any continuation. -/
theorem absorb_take (k : ℕ) (z y : List SR) :
    (sortR ((sortR z).take k ++ y)).take k = (sortR (z ++ y)).take k := by
  rw [sortR_append_merge, sortR_append_merge,
    sortR_of_sorted (sorted_take (sortR_sorted z) k)]
  exact (take_mergeSR_left ((sortR z).length + (sortR y).length) (sortR z)
    (sortR y) le_rfl k).symm

theorem topAccum_spec {β : Type} (k thresh : ℕ) (f : List β → List SR)
    (hf : ∀ xs ys, f (xs ++ ys) = f xs ++ f ys) :
    ∀ (bs : List (List β)) (acc : List SR),
      (sortR (topAccum k thresh f bs acc)).take k =
        (sortR (acc ++ f bs.flatten)).take k := by
  have hnil : f [] = [] := by
    have h := hf [] []
    simp only [List.append_nil] at h
    exact (List.self_eq_append_right.mp h)
  intro bs
  induction bs with
  | nil =>
      intro acc
      simp [topAccum, hnil]
  | cons bt bs ih =>
      intro acc
      rw [topAccum]
      by_cases hl : thresh < (acc ++ f bt).length
      · rw [if_pos hl, ih, List.flatten_cons, hf, absorb_take,
          List.append_assoc]
      · rw [if_neg hl, ih, List.flatten_cons, hf, List.append_assoc]

/-- Every batched-and-trimmed loop computes the canonical
`sort . take limit` of its scored stream. -/
theorem topFinish_eq {β : Type} (k thresh : ℕ) (f : List β → List SR)
    (hf : ∀ xs ys, f (xs ++ ys) = f xs ++ f ys) (n : ℕ) (l : List β) :
    topFinish k thresh f (batches n l) = (sortR (f l)).take k := by
  rw [topFinish, topAccum_spec k thresh f hf, batches_flatten, List.nil_append]

theorem flatten_map_singleton {β : Type} (l : List β) :
    (l.map fun x => [x]).flatten = l := by
  induction l with
  | nil => rfl
  | cons x l ih => simp [ih]

/-- The per-element variant (`searchVectorFromDB`'s `processChunk`). -/
theorem topFinish_eq_single {β : Type} (k thresh : ℕ) (f : List β → List SR)
    (hf : ∀ xs ys, f (xs ++ ys) = f xs ++ f ys) (l : List β) :
    topFinish k thresh f (l.map fun x => [x]) = (sortR (f l)).take k := by
  rw [topFinish, topAccum_spec k thresh f hf, flatten_map_singleton,
    List.nil_append]

/-! ### Canonical forms of the search pipelines -/

theorem map_filter_distrib {β : Type} (g : β → SR) (q : SR → Bool)
    (xs ys : List β) :
    ((xs ++ ys).map g).filter q = ((xs.map g).filter q) ++ ((ys.map g).filter q) := by
  rw [List.map_append, List.filter_append]

theorem filter_map_filter_distrib {β : Type} (a : β → Bool) (g : β → SR)
    (q : SR → Bool) (xs ys : List β) :
    (((xs ++ ys).filter a).map g).filter q =
      ((((xs.filter a).map g).filter q)) ++ ((((ys.filter a).map g).filter q)) := by
  rw [List.filter_append, List.map_append, List.filter_append]

theorem searchBM25_canonical (ops : FloatOps) (query : Option (List Char))
    (chunks : List Chunk) (limit : ℕ) :
    searchBM25 ops query chunks limit =
      if tokenize query = [] then []
      else
        (sortR ((chunks.enum.map
          (bm25SR ops (buildDocumentFrequencyIndex chunks) (tokenize query))).filter
            fun r => 0 < r.score)).take limit := by
  rw [searchBM25]
  by_cases h : tokenize query = []
  · rw [if_pos h, if_pos h]
  · rw [if_neg h, if_neg h]
    exact topFinish_eq _ _ _ (map_filter_distrib _ _) 1000 chunks.enum

theorem searchVector_canonical (ops : FloatOps) (qe : Option (List ℚ))
    (chunks : List Chunk) (limit : ℕ) (cands : Option (List ℕ)) :
    searchVector ops qe chunks limit cands =
      (sortR (((vectorCandidateChunks chunks cands).map (vecSR ops qe)).filter
        fun r => 0 < r.score)).take limit := by
  rw [searchVector]
  by_cases h : (vectorCandidateChunks chunks cands).length = 0
  · rw [if_pos h]
    rw [List.length_eq_zero] at h
    rw [h]
    simp [sortR]
  · rw [if_neg h]
    exact topFinish_eq _ _ _ (map_filter_distrib _ _) 500 _

theorem searchBM25FromDB_canonical (ops : FloatOps) (s : Store)
    (query : Option (List Char)) (limit : ℕ) (w : Option (Chunk → Bool)) :
    searchBM25FromDB ops s query limit w =
      if tokenize query = [] then []
      else if (buildDocumentFrequencyIndexFromDB s w).totalDocs = 0 then []
      else
        (sortR (((scanRows s w).map
          (bm25SR ops (buildDocumentFrequencyIndexFromDB s w) (tokenize query))).filter
            fun r => 0 < r.score)).take limit := by
  rw [searchBM25FromDB]
  by_cases h : tokenize query = []
  · rw [if_pos h, if_pos h]
  · rw [if_neg h, if_neg h]
    by_cases h0 : (buildDocumentFrequencyIndexFromDB s w).totalDocs = 0
    · rw [if_pos h0, if_pos h0]
    · rw [if_neg h0, if_neg h0]
      rw [topFinish_eq _ _ _ (filter_map_filter_distrib _ _ _) 1000 _,
        bm25_prefilter_stream_eq]

theorem searchVectorFromDB_canonical (ops : FloatOps) (s : Store)
    (qe : Option (List ℚ)) (limit : ℕ) (w : Option (Chunk → Bool))
    (wl : Option (List ℕ)) :
    searchVectorFromDB ops s qe limit w wl =
      match qe with
      | none => []
      | some e =>
          (sortR (((((match wl with
            | some ids =>
                if 0 < ids.length then getChunksByIds s ids else scanRows s w
            | none => scanRows s w) : List TChunk).filter fun p => embOk p.2).map
              (vecSR ops (some e))).filter fun r => 0 < r.score)).take limit := by
  rw [searchVectorFromDB.eq_def]
  match qe with
  | none => rfl
  | some e =>
      match wl with
      | some ids =>
          by_cases h : 0 < ids.length
          · simp only [h, if_true]
            exact topFinish_eq_single _ _ _ (filter_map_filter_distrib _ _ _) _
          · simp only [h, if_false]
            exact topFinish_eq_single _ _ _ (filter_map_filter_distrib _ _ _) _
      | none =>
          exact topFinish_eq_single _ _ _ (filter_map_filter_distrib _ _ _) _

theorem searchBM25_length_le (ops : FloatOps) (query : Option (List Char))
    (chunks : List Chunk) (limit : ℕ) :
    (searchBM25 ops query chunks limit).length ≤ limit := by
  rw [searchBM25_canonical]
  by_cases h : tokenize query = []
  · rw [if_pos h]
    exact Nat.zero_le _
  · rw [if_neg h]
    exact List.length_take_le _ _

theorem searchVector_length_le (ops : FloatOps) (qe : Option (List ℚ))
    (chunks : List Chunk) (limit : ℕ) (cands : Option (List ℕ)) :
    (searchVector ops qe chunks limit cands).length ≤ limit := by
  rw [searchVector_canonical]
  exact List.length_take_le _ _

theorem searchVector_mem_stream (ops : FloatOps) (qe : Option (List ℚ))
    (chunks : List Chunk) (limit : ℕ) (cands : Option (List ℕ)) (r : SR)
    (hr : r ∈ searchVector ops qe chunks limit cands) :
    ∃ p ∈ vectorCandidateChunks chunks cands, r = vecSR ops qe p := by
  rw [searchVector_canonical] at hr
  have h1 := List.mem_of_mem_take hr
  have h2 := (sortR_perm _).mem_iff.mp h1
  have h3 := List.mem_of_mem_filter h2
  obtain ⟨p, hp, rfl⟩ := List.mem_map.mp h3
  exact ⟨p, hp, rfl⟩

/-! ### Min-max normalization (towards C3, C10) -/

theorem le_foldl_max (l : List ℚ) (a : ℚ) : a ≤ l.foldl max a := by
  induction l generalizing a with
  | nil => exact le_refl a
  | cons x l ih => exact le_trans (le_max_left a x) (ih (max a x))

theorem mem_le_foldl_max (l : List ℚ) (a : ℚ) (x : ℚ) (hx : x ∈ l) :
    x ≤ l.foldl max a := by
  induction l generalizing a with
  | nil => exact absurd hx (List.not_mem_nil x)
  | cons y l ih =>
      rcases List.mem_cons.mp hx with rfl | hx
      · exact le_trans (le_max_right a x) (le_foldl_max l (max a x))
      · exact ih (max a y) hx

theorem le_listMax (l : List ℚ) (x : ℚ) (hx : x ∈ l) : x ≤ listMax l := by
  cases l with
  | nil => exact absurd hx (List.not_mem_nil x)
  | cons a l =>
      rw [listMax]
      rcases List.mem_cons.mp hx with rfl | hx
      · exact le_foldl_max l x
      · exact mem_le_foldl_max l a x hx

theorem foldl_min_le (l : List ℚ) (a : ℚ) : l.foldl min a ≤ a := by
  induction l generalizing a with
  | nil => exact le_refl a
  | cons x l ih => exact le_trans (ih (min a x)) (min_le_left a x)

theorem foldl_min_le_mem (l : List ℚ) (a : ℚ) (x : ℚ) (hx : x ∈ l) :
    l.foldl min a ≤ x := by
  induction l generalizing a with
  | nil => exact absurd hx (List.not_mem_nil x)
  | cons y l ih =>
      rcases List.mem_cons.mp hx with rfl | hx
      · exact le_trans (foldl_min_le l (min a x)) (min_le_right a x)
      · exact ih (min a y) hx

theorem listMin_le (l : List ℚ) (x : ℚ) (hx : x ∈ l) : listMin l ≤ x := by
  cases l with
  | nil => exact absurd hx (List.not_mem_nil x)
  | cons a l =>
      rw [listMin]
      rcases List.mem_cons.mp hx with rfl | hx
      · exact foldl_min_le l x
      · exact foldl_min_le_mem l a x hx

theorem normMap_not_mem (rs : List SR) (cid : ℕ)
    (h : cid ∉ rs.map (·.id)) : normMap rs cid = 0 := by
  rw [normMap]
  have hf : rs.find? (fun r => r.id = cid) = none := by
    rw [List.find?_eq_none]
    intro r hr
    simp only [decide_eq_true_eq]
    intro he
    exact h (he ▸ List.mem_map_of_mem (·.id) hr)
  rw [hf]

theorem normMap_bounds (rs : List SR) (cid : ℕ) :
    0 ≤ normMap rs cid ∧ normMap rs cid ≤ 1 := by
  rcases hf : rs.find? (fun r => r.id = cid) with _ | r
  · simp [normMap, hf]
  · have hmem : r ∈ rs := List.mem_of_find?_eq_some hf
    have hsc : r.score ∈ rs.map (·.score) := List.mem_map_of_mem (·.score) hmem
    have hmax : r.score ≤ listMax (rs.map (·.score)) := le_listMax _ _ hsc
    have hmin : listMin (rs.map (·.score)) ≤ r.score := listMin_le _ _ hsc
    simp only [normMap, hf]
    by_cases h0 : listMax (rs.map (·.score)) - listMin (rs.map (·.score)) = 0
    · rw [if_pos h0]
      have : r.score = listMin (rs.map (·.score)) := by
        simp only [List.map_eq_map] at h0 ⊢
        linarith
      rw [this]
      norm_num
    · rw [if_neg h0]
      have hpos : 0 < listMax (rs.map (·.score)) - listMin (rs.map (·.score)) := by
        rcases lt_or_eq_of_le (by linarith :
          (0 : ℚ) ≤ listMax (rs.map (·.score)) - listMin (rs.map (·.score))) with h | h
        · exact h
        · exact absurd h.symm h0
      constructor
      · apply div_nonneg (by linarith) (le_of_lt hpos)
      · rw [div_le_one hpos]
        linarith

/-- Extraction lemma for hybrid results: every returned record carries
the weighted combination of the two normalized maps at its own id, and
passed the positive-score filter. -/
theorem searchHybrid_mem_score (ops : FloatOps) (query : Option (List Char))
    (qe : Option (List ℚ)) (chunks : List Chunk) (limit : ℕ)
    (bw vw : ℚ) (r : SR)
    (hr : r ∈ searchHybrid ops query qe chunks limit bw vw) :
    r.score =
      normMap (searchBM25 ops query chunks (limit * 2)) r.id * bw +
        normMap (searchVector ops qe chunks (limit * 2)
          (buildVectorCandidateSet (searchBM25 ops query chunks (limit * 2))
            limit 4)) r.id * vw ∧
      0 < r.score := by
  simp only [searchHybrid, hybridAssemble] at hr
  have h1 := List.mem_of_mem_take hr
  have h2 := (sortR_perm _).mem_iff.mp h1
  have h3 := List.mem_of_mem_filter h2
  have hpos : 0 < r.score := by
    have := List.of_mem_filter h2
    simpa using this
  refine ⟨?_, hpos⟩
  obtain ⟨p, hp, hp2⟩ := List.mem_filterMap.mp h3
  obtain ⟨c, _, hc⟩ := Option.map_eq_some'.mp hp2
  have hre : r = ⟨p.1, p.2.1, p.2.2⟩ := hc.symm
  have hps := List.mem_map_of_mem Prod.snd hp
  rw [List.enum_map_snd] at hps
  obtain ⟨cid, _, hcid⟩ := List.mem_map.mp hps
  subst hre
  show p.2.2 = _
  rw [← hcid]

/-- C3: in hybrid search with the default weights 0.5/0.5, every returned
result's fused score is 0.5 times the min-max-normalized BM25 score of
its chunk id plus 0.5 times the min-max-normalized vector score; each
normalized map stays within [0, 1] over its own result set; and a chunk
id absent from one side's result set receives exactly 0 from that side. -/
theorem c3_hybrid_fusion_normalization (ops : FloatOps) (query : Option (List Char))
    (qe : Option (List ℚ)) (chunks : List Chunk) (limit : ℕ) :
    (∀ r ∈ searchHybrid ops query qe chunks limit (1 / 2) (1 / 2),
        r.score =
          (1 / 2 : ℚ) * normMap (searchBM25 ops query chunks (limit * 2)) r.id +
            (1 / 2 : ℚ) * normMap (searchVector ops qe chunks (limit * 2)
              (buildVectorCandidateSet (searchBM25 ops query chunks (limit * 2))
                limit 4)) r.id) ∧
    (∀ cid, 0 ≤ normMap (searchBM25 ops query chunks (limit * 2)) cid ∧
        normMap (searchBM25 ops query chunks (limit * 2)) cid ≤ 1) ∧
    (∀ cid, 0 ≤ normMap (searchVector ops qe chunks (limit * 2)
          (buildVectorCandidateSet (searchBM25 ops query chunks (limit * 2))
            limit 4)) cid ∧
        normMap (searchVector ops qe chunks (limit * 2)
          (buildVectorCandidateSet (searchBM25 ops query chunks (limit * 2))
            limit 4)) cid ≤ 1) ∧
    (∀ cid, cid ∉ (searchBM25 ops query chunks (limit * 2)).map (·.id) →
        normMap (searchBM25 ops query chunks (limit * 2)) cid = 0) ∧
    (∀ cid, cid ∉ (searchVector ops qe chunks (limit * 2)
          (buildVectorCandidateSet (searchBM25 ops query chunks (limit * 2))
            limit 4)).map (·.id) →
        normMap (searchVector ops qe chunks (limit * 2)
          (buildVectorCandidateSet (searchBM25 ops query chunks (limit * 2))
            limit 4)) cid = 0) := by
  refine ⟨?_, fun cid => normMap_bounds _ cid,
    fun cid => normMap_bounds _ cid,
    fun cid h => normMap_not_mem _ cid h,
    fun cid h => normMap_not_mem _ cid h⟩
  intro r hr
  have h := (searchHybrid_mem_score ops query qe chunks limit (1 / 2) (1 / 2) r hr).1
  rw [h]
  ring

set_option maxRecDepth 1000000 in
unseal Rat.add Rat.sub Rat.mul Rat.inv in
/-- C3 witness: on the three-chunk corpus, chunk 2 is returned by the
hybrid search with fused score 1/2; it is absent from the BM25 result
set, whose normalized contribution is therefore 0. -/
theorem c3_hybrid_fusion_normalization_witness :
    ((⟨1, 2, 1 / 2⟩ : SR) ∈ searchHybrid ops0 queryCat qe0 store0.chunks 1 (1 / 2) (1 / 2)) ∧
    ((⟨1, 2, 1 / 2⟩ : SR).score =
      (1 / 2 : ℚ) * normMap (searchBM25 ops0 queryCat store0.chunks (1 * 2))
        (⟨1, 2, 1 / 2⟩ : SR).id +
        (1 / 2 : ℚ) * normMap (searchVector ops0 qe0 store0.chunks (1 * 2)
          (buildVectorCandidateSet (searchBM25 ops0 queryCat store0.chunks (1 * 2))
            1 4)) (⟨1, 2, 1 / 2⟩ : SR).id) ∧
    ((2 : ℕ) ∉ (searchBM25 ops0 queryCat store0.chunks (1 * 2)).map (·.id)) ∧
    normMap (searchBM25 ops0 queryCat store0.chunks (1 * 2)) 2 = 0 :=
  ⟨by decide,
   (c3_hybrid_fusion_normalization ops0 queryCat qe0 store0.chunks 1).1
     ⟨1, 2, 1 / 2⟩ (by decide),
   by decide,
   (c3_hybrid_fusion_normalization ops0 queryCat qe0 store0.chunks 1).2.2.2.1
     2 (by decide)⟩

/-! ### Equal-score result sets normalize to zero (C10) -/

theorem foldl_max_const : ∀ (l : List ℚ) (a : ℚ), (∀ x ∈ l, x = a) →
    l.foldl max a = a
  | [], _, _ => rfl
  | x :: t, a, h => by
      rw [List.foldl_cons, h x (List.mem_cons_self x t), max_self]
      exact foldl_max_const t a fun y hy => h y (List.mem_cons_of_mem x hy)

theorem foldl_min_const : ∀ (l : List ℚ) (a : ℚ), (∀ x ∈ l, x = a) →
    l.foldl min a = a
  | [], _, _ => rfl
  | x :: t, a, h => by
      rw [List.foldl_cons, h x (List.mem_cons_self x t), min_self]
      exact foldl_min_const t a fun y hy => h y (List.mem_cons_of_mem x hy)

theorem listMax_const (l : List ℚ) (c : ℚ) (h : ∀ x ∈ l, x = c)
    (hne : l ≠ []) : listMax l = c := by
  cases l with
  | nil => exact absurd rfl hne
  | cons a t =>
      rw [listMax, h a (List.mem_cons_self a t)]
      exact foldl_max_const t c fun y hy => h y (List.mem_cons_of_mem a hy)

theorem listMin_const (l : List ℚ) (c : ℚ) (h : ∀ x ∈ l, x = c)
    (hne : l ≠ []) : listMin l = c := by
  cases l with
  | nil => exact absurd rfl hne
  | cons a t =>
      rw [listMin, h a (List.mem_cons_self a t)]
      exact foldl_min_const t c fun y hy => h y (List.mem_cons_of_mem a hy)

/-- C10: min-max normalization sends every member of a result set whose
scores are all equal (in particular a singleton set) to 0, the range
defaulting to 1; consequently, when BM25 returns exactly one candidate
and the vector side does not give that chunk a positive normalized
score, the chunk is dropped by the final positive-score filter of the
hybrid search even though it was the best lexical match. -/
theorem c10_minmax_zeroing :
    (∀ (rs : List SR) (cid : ℕ),
        (∀ a ∈ rs, ∀ b ∈ rs, a.score = b.score) → normMap rs cid = 0) ∧
    (∀ (ops : FloatOps) (query : Option (List Char)) (qe : Option (List ℚ))
        (chunks : List Chunk) (limit : ℕ) (b : SR),
        searchBM25 ops query chunks (limit * 2) = [b] →
        normMap (searchVector ops qe chunks (limit * 2)
          (buildVectorCandidateSet [b] limit 4)) b.id ≤ 0 →
        b.id ∉ (searchHybrid ops query qe chunks limit (1 / 2) (1 / 2)).map (·.id)) := by
  have parta : ∀ (rs : List SR) (cid : ℕ),
      (∀ a ∈ rs, ∀ b ∈ rs, a.score = b.score) → normMap rs cid = 0 := by
    intro rs cid h
    rcases hf : rs.find? (fun r => r.id = cid) with _ | r
    · simp [normMap, hf]
    · have hmem : r ∈ rs := List.mem_of_find?_eq_some hf
      have hall : ∀ x ∈ rs.map (·.score), x = r.score := by
        intro x hx
        obtain ⟨a, ha, rfl⟩ := List.mem_map.mp hx
        exact h a ha r hmem
      have hne : rs.map (·.score) ≠ [] :=
        List.ne_nil_of_mem (List.mem_map_of_mem (·.score) hmem)
      have hmax := listMax_const (rs.map (·.score)) r.score hall hne
      have hmin := listMin_const (rs.map (·.score)) r.score hall hne
      simp only [normMap, hf, hmax, hmin]
      simp
  refine ⟨parta, ?_⟩
  intro ops query qe chunks limit b hB hV hmem
  obtain ⟨r, hr, hid⟩ := List.mem_map.mp hmem
  have hs := searchHybrid_mem_score ops query qe chunks limit (1 / 2) (1 / 2) r hr
  rw [hB] at hs
  have hnb : normMap [b] r.id = 0 := by
    apply parta
    intro a ha b' hb'
    rw [List.mem_singleton.mp ha, List.mem_singleton.mp hb']
  have heq := hs.1
  rw [hnb, hid] at heq
  rw [zero_mul, zero_add] at heq
  have hpos := hs.2
  rw [heq] at hpos
  nlinarith [hV]

set_option maxRecDepth 1000000 in
unseal Rat.add Rat.sub Rat.mul Rat.inv in
/-- C10 witness: on the three-chunk corpus with limit 2, BM25 returns
exactly chunk 1 (the only lexical match), the vector side gives it
normalized score 0, and chunk 1 is absent from the hybrid output. -/
theorem c10_minmax_zeroing_witness :
    (searchBM25 ops0 queryCat store0.chunks (2 * 2) = [(⟨0, 1, 1⟩ : SR)]) ∧
    (normMap (searchVector ops0 qe0 store0.chunks (2 * 2)
      (buildVectorCandidateSet [(⟨0, 1, 1⟩ : SR)] 2 4)) (⟨0, 1, 1⟩ : SR).id ≤ 0) ∧
    ((⟨0, 1, 1⟩ : SR).id ∉
      (searchHybrid ops0 queryCat qe0 store0.chunks 2 (1 / 2) (1 / 2)).map (·.id)) :=
  ⟨by decide, by decide,
   c10_minmax_zeroing.2 ops0 queryCat qe0 store0.chunks 2 ⟨0, 1, 1⟩
     (by decide) (by decide)⟩

/-! ### The vector candidate set and its fallbacks (C4) -/

/-- C4 (amended): with a nonempty BM25 result set and a nonzero limit
the candidate set is the first `limit * 4` distinct BM25 chunk ids; the
vector stage scores the whole embedded corpus when there is no candidate
set, restricts to the candidates when some embedded chunk matches them,
but ALSO falls back to the whole embedded corpus whenever no embedded
chunk's id is among the candidates — not only when BM25 returns zero
candidates. -/
theorem c4_candidate_set_amended :
    (∀ (B : List SR) (limit : ℕ), B ≠ [] → limit ≠ 0 →
        buildVectorCandidateSet B limit 4 =
          some ((setOrder (B.map (·.id))).take (limit * 4))) ∧
    (∀ chunks : List Chunk,
        vectorCandidateChunks chunks none =
          chunks.enum.filter fun p => embOk p.2) ∧
    (∀ (chunks : List Chunk) (cs : List ℕ), cs ≠ [] →
        ((chunks.enum.filter fun p => embOk p.2).filter fun p => p.2.id ∈ cs) ≠ [] →
        vectorCandidateChunks chunks (some cs) =
          (chunks.enum.filter fun p => embOk p.2).filter fun p => p.2.id ∈ cs) ∧
    (∀ (chunks : List Chunk) (cs : List ℕ),
        ((chunks.enum.filter fun p => embOk p.2).filter fun p => p.2.id ∈ cs) = [] →
        vectorCandidateChunks chunks (some cs) =
          chunks.enum.filter fun p => embOk p.2) := by
  refine ⟨?_, fun chunks => rfl, ?_, ?_⟩
  · intro B limit hB hl
    have h1 : ¬(B.length = 0 ∨ limit = 0) := by
      push_neg
      exact ⟨fun h => hB (List.length_eq_zero.mp h), hl⟩
    have hmax : max (limit * 4) limit = limit * 4 := max_eq_left (by omega)
    have hne : setOrder (B.map (·.id)) ≠ [] := by
      cases B with
      | nil => exact absurd rfl hB
      | cons b t =>
          exact List.ne_nil_of_mem (mem_setOrder.mpr
            (List.mem_map_of_mem _ (List.mem_cons_self b t)))
    have hlen : ¬((setOrder (B.map (·.id))).take (limit * 4)).length = 0 := by
      rw [List.length_take]
      have := List.length_pos.mpr hne
      omega
    simp only [buildVectorCandidateSet, hmax]
    rw [if_neg h1, if_neg hlen]
  · intro chunks cs hcs hne
    simp only [vectorCandidateChunks]
    rw [if_pos (List.length_pos.mpr hcs), if_pos (List.length_pos.mpr hne)]
  · intro chunks cs h0
    simp only [vectorCandidateChunks]
    by_cases hc : 0 < cs.length
    · rw [if_pos hc, h0]
      simp
    · rw [if_neg hc]

set_option maxRecDepth 1000000 in
unseal Rat.add Rat.sub Rat.mul Rat.inv in
/-- C4 witness: a singleton BM25 result set with limit 1 yields the
candidate set of its first 4 distinct ids, and a candidate list matching
no embedded chunk triggers the full-corpus fallback. -/
theorem c4_candidate_set_amended_witness :
    ([(⟨0, 1, 1⟩ : SR)] ≠ [] ∧ (1 : ℕ) ≠ 0 ∧
      buildVectorCandidateSet [(⟨0, 1, 1⟩ : SR)] 1 4 =
        some ((setOrder ([(⟨0, 1, 1⟩ : SR)].map (·.id))).take (1 * 4))) ∧
    ((((store0.chunks.enum.filter fun p => embOk p.2).filter
        fun p => p.2.id ∈ [1]) = []) ∧
      vectorCandidateChunks store0.chunks (some [1]) =
        store0.chunks.enum.filter fun p => embOk p.2) :=
  ⟨⟨by decide, by decide,
    c4_candidate_set_amended.1 [⟨0, 1, 1⟩] 1 (by decide) (by decide)⟩,
   ⟨by decide,
    c4_candidate_set_amended.2.2.2 store0.chunks [1] (by decide)⟩⟩

set_option maxRecDepth 1000000 in
unseal Rat.add Rat.sub Rat.mul Rat.inv in
/-- C4 counterexample: on the three-chunk corpus BM25 returns a nonzero
candidate set ([1]), yet the vector stage still scores the full embedded
corpus because chunk 1 carries no embedding — scoring with the candidate
set equals scoring with no candidate set at all, refuting "falls back
only when BM25 returns zero candidates". -/
theorem c4_fallback_counterexample :
    (searchBM25 ops0 queryCat store0.chunks (1 * 2) ≠ []) ∧
    (buildVectorCandidateSet (searchBM25 ops0 queryCat store0.chunks (1 * 2)) 1 4 =
      some [1]) ∧
    (((store0.chunks.enum.filter fun p => embOk p.2).filter
        fun p => p.2.id ∈ [1]) = []) ∧
    (vectorCandidateChunks store0.chunks (some [1]) =
      store0.chunks.enum.filter fun p => embOk p.2) ∧
    (searchVector ops0 qe0 store0.chunks (1 * 2) (some [1]) =
      searchVector ops0 qe0 store0.chunks (1 * 2) none) := by
  exact ⟨by decide, by decide, by decide, by decide, by decide⟩

/-! ### Streaming vs in-memory equivalence (C2) -/

theorem snd_mem_of_mem_enum {l : List α} {p : ℕ × α} (hp : p ∈ l.enum) :
    p.2 ∈ l := by
  have := List.mem_map_of_mem Prod.snd hp
  rwa [List.enum_map_snd] at this

theorem exists_mem_enum (l : List α) (a : α) (ha : a ∈ l) :
    ∃ i, (i, a) ∈ l.enum := by
  have h1 : a ∈ l.enum.map Prod.snd := by
    rw [List.enum_map_snd]
    exact ha
  obtain ⟨p, hp, hpa⟩ := List.mem_map.mp h1
  refine ⟨p.1, ?_⟩
  rw [← hpa]
  exact hp

theorem filterMap_congr (f g : α → Option β) :
    ∀ (l : List α), (∀ a ∈ l, f a = g a) → l.filterMap f = l.filterMap g
  | [], _ => rfl
  | a :: t, h => by
      rw [List.filterMap_cons, List.filterMap_cons, h a (List.mem_cons_self a t),
        filterMap_congr f g t fun x hx => h x (List.mem_cons_of_mem a hx)]

/-- The batched streaming document-frequency build over a full table
scan equals the in-memory build. -/
theorem dfiFromScan_enum (chunks : List Chunk) :
    dfiFromScan chunks.enum = buildDocumentFrequencyIndex chunks := by
  have hb : chunks.enum.foldl (fun a' p => dfStep a' p.2.content)
      (⟨[], [], 0⟩ : DFAcc) =
      chunks.foldl (fun a c => dfStep a c.content) ⟨[], [], 0⟩ := by
    have h1 := List.foldl_map (Prod.snd : ℕ × Chunk → Chunk)
      (fun a (c : Chunk) => dfStep a c.content) chunks.enum (⟨[], [], 0⟩ : DFAcc)
    rw [List.enum_map_snd] at h1
    exact h1.symm
  have hflat : (batches 1000 chunks.enum).foldl
      (fun a batch => batch.foldl (fun a' p => dfStep a' p.2.content) a)
      (⟨[], [], 0⟩ : DFAcc) =
      chunks.enum.foldl (fun a' p => dfStep a' p.2.content) ⟨[], [], 0⟩ := by
    conv_rhs => rw [← batches_flatten 1000 chunks.enum]
    exact (List.foldl_flatten _ _ _).symm
  have hcount : (chunks.foldl (fun a c => dfStep a c.content)
      (⟨[], [], 0⟩ : DFAcc)).count = chunks.length := by
    have h2 := List.foldl_map (fun c : Chunk => c.content) dfStep chunks
      (⟨[], [], 0⟩ : DFAcc)
    rw [← h2, foldl_dfStep_count]
    simp
  simp only [dfiFromScan, buildDocumentFrequencyIndex]
  rw [hflat, hb]
  congr 1
  rw [hcount]

/-- Under a coherent cache, the streaming index build with the empty
`WHERE` clause returns exactly the in-memory index. -/
theorem buildDocumentFrequencyIndexFromDB_none (s : Store) (hc : CacheOk s) :
    buildDocumentFrequencyIndexFromDB s none = buildDocumentFrequencyIndex s.chunks := by
  show (if isDocumentFrequencyIndexCacheValid s then getCachedIndex s
    else dfiFromScan (scanRows s none)) = buildDocumentFrequencyIndex s.chunks
  by_cases hv : isDocumentFrequencyIndexCacheValid s = true
  · rw [if_pos hv]
    cases hc with
    | inl h => rw [h] at hv; simp at hv
    | inr h => exact h
  · rw [if_neg hv]
    rw [show scanRows s none = s.chunks.enum from rfl]
    exact dfiFromScan_enum s.chunks

/-- Streaming BM25 with the empty `WHERE` clause equals in-memory BM25
(for every limit) under a coherent cache. -/
theorem searchBM25FromDB_eq_mem (ops : FloatOps) (s : Store)
    (query : Option (List Char)) (limit : ℕ) (hc : CacheOk s) :
    searchBM25FromDB ops s query limit none = searchBM25 ops query s.chunks limit := by
  rw [searchBM25FromDB_canonical, searchBM25_canonical,
    buildDocumentFrequencyIndexFromDB_none s hc]
  by_cases hq : tokenize query = []
  · rw [if_pos hq, if_pos hq]
  · rw [if_neg hq, if_neg hq]
    by_cases h0 : (buildDocumentFrequencyIndex s.chunks).totalDocs = 0
    · rw [if_pos h0]
      have h1 : ((s.chunks.length : ℚ)) = 0 := h0
      have hlen : s.chunks = [] :=
        List.length_eq_zero.mp (Nat.cast_eq_zero.mp h1)
      rw [hlen]
      simp [sortR]
    · rw [if_neg h0]
      rfl

theorem embOk_embNotNull (c : Chunk) (h : embOk c = true) : embNotNull c = true := by
  rw [embNotNull]
  cases he : c.embedding with
  | none => simp [embOk, he] at h
  | some e => rfl

/-- Restricting a scan to `embedding IS NOT NULL` and then keeping only
chunks with a usable embedding is the same as the latter alone. -/
theorem filter_embNotNull_embOk (l : List TChunk) :
    ((l.filter fun q => embNotNull q.2).filter fun p => embOk p.2) =
      l.filter fun p => embOk p.2 := by
  rw [List.filter_filter]
  apply List.filter_congr
  intro p _
  cases hp : embOk p.2
  · simp
  · simp [embOk_embNotNull p.2 hp]

theorem vecSR_none_score (ops : FloatOps) (p : TChunk) :
    (vecSR ops none p).score = 0 := by
  show cosineSimilarity ops none p.2.embedding = 0
  cases p.2.embedding <;> rfl

/-- Streaming vector search over the `embedding IS NOT NULL` scan equals
the in-memory vector search, provided the whitelist (when present and
nonempty) either matches some embedded chunk or no chunk is embedded at
all. -/
theorem searchVectorFromDB_eq_mem (ops : FloatOps) (s : Store)
    (qe : Option (List ℚ)) (limit : ℕ) (wl : Option (List ℕ))
    (hwl : ∀ cs, wl = some cs → cs ≠ [] →
        (∃ c ∈ s.chunks, embOk c = true ∧ c.id ∈ cs) ∨
          ∀ c ∈ s.chunks, embOk c = false) :
    searchVectorFromDB ops s qe limit (some embNotNull) wl =
      searchVector ops qe s.chunks limit wl := by
  cases qe with
  | none =>
      have hz : (((vectorCandidateChunks s.chunks wl).map (vecSR ops none)).filter
          fun r => 0 < r.score) = [] := by
        rw [List.filter_eq_nil_iff]
        intro r hr
        obtain ⟨p, _, rfl⟩ := List.mem_map.mp hr
        simp [vecSR_none_score]
      rw [searchVector_canonical, hz,
        show searchVectorFromDB ops s none limit (some embNotNull) wl =
          ([] : List SR) from rfl]
      simp [sortR]
  | some e =>
      cases wl with
      | none =>
          simp only [searchVectorFromDB_canonical, searchVector_canonical]
          rw [show scanRows s (some embNotNull) =
              s.chunks.enum.filter fun q => embNotNull q.2 from rfl,
            filter_embNotNull_embOk]
          rfl
      | some ids =>
          by_cases hlen : 0 < ids.length
          · have hids : ids ≠ [] := by
              intro h
              rw [h] at hlen
              simp at hlen
            rcases hwl ids rfl hids with hex | hall
            · have hfil : ((s.chunks.enum.filter fun p => embOk p.2).filter
                  fun p => p.2.id ∈ ids) ≠ [] := by
                obtain ⟨c, hcmem, hcok, hcid⟩ := hex
                obtain ⟨i, hi⟩ := exists_mem_enum s.chunks c hcmem
                apply List.ne_nil_of_mem (a := (i, c))
                apply List.mem_filter.mpr
                refine ⟨List.mem_filter.mpr ⟨hi, hcok⟩, ?_⟩
                simp [hcid]
              simp only [searchVectorFromDB_canonical, searchVector_canonical,
                vectorCandidateChunks]
              rw [if_pos hlen, if_pos hlen, if_pos (List.length_pos.mpr hfil),
                show getChunksByIds s ids =
                  s.chunks.enum.filter fun p => p.2.id ∈ ids from rfl,
                List.filter_comm]
            · have hemb : (s.chunks.enum.filter fun p => embOk p.2) = [] := by
                rw [List.filter_eq_nil_iff]
                intro p hp
                simp [hall p.2 (snd_mem_of_mem_enum hp)]
              have hfil : ((s.chunks.enum.filter fun p => embOk p.2).filter
                  fun p => p.2.id ∈ ids) = [] := by
                rw [hemb]
                rfl
              have hL : ((getChunksByIds s ids).filter fun p => embOk p.2) = [] := by
                rw [show getChunksByIds s ids =
                    s.chunks.enum.filter fun p => p.2.id ∈ ids from rfl,
                  List.filter_comm, hemb]
                rfl
              simp only [searchVectorFromDB_canonical, searchVector_canonical,
                vectorCandidateChunks]
              rw [if_pos hlen, if_pos hlen, hL, hfil, hemb]
              simp [sortR]
          · simp only [searchVectorFromDB_canonical, searchVector_canonical,
              vectorCandidateChunks]
            rw [if_neg hlen, if_neg hlen,
              show scanRows s (some embNotNull) =
                s.chunks.enum.filter fun q => embNotNull q.2 from rfl,
              filter_embNotNull_embOk]

theorem hybridAssemble_congr (limit : ℕ) (entries : List (ℕ × ℚ))
    (f g : ℕ → Option Chunk) (h : ∀ e ∈ entries, f e.1 = g e.1) :
    hybridAssemble limit entries f = hybridAssemble limit entries g := by
  simp only [hybridAssemble]
  have he : entries.enum.filterMap
      (fun p => (f p.2.1).map fun _ => (⟨p.1, p.2.1, p.2.2⟩ : SR)) =
      entries.enum.filterMap
      (fun p => (g p.2.1).map fun _ => (⟨p.1, p.2.1, p.2.2⟩ : SR)) := by
    apply filterMap_congr
    intro p hp
    rw [h p.2 (snd_mem_of_mem_enum hp)]
  rw [he]

/-- When the combined id list fits within `limit * 2`, the streaming
hybrid's sliced batch lookup behaves like the in-memory direct lookup. -/
theorem hybridAssemble_take_lookup (limit : ℕ) (s : Store) (allIds : List ℕ)
    (score : ℕ → ℚ) (h : allIds.length ≤ limit * 2) :
    hybridAssemble limit (allIds.map fun cid => (cid, score cid))
      (fun cid =>
        if cid ∈ (((allIds.map fun cid => (cid, score cid)).map Prod.fst).take (limit * 2))
        then getChunk s cid else none) =
      hybridAssemble limit (allIds.map fun cid => (cid, score cid))
        (fun cid => s.chunks.find? fun c => c.id = cid) := by
  have h1 : (allIds.map fun cid => (cid, score cid)).map Prod.fst = allIds := by
    induction allIds with
    | nil => rfl
    | cons a t ih =>
        simp only [List.map_cons]
        rw [ih (Nat.le_of_succ_le h)]
  rw [h1, List.take_of_length_le h]
  apply hybridAssemble_congr
  intro e he
  obtain ⟨cid, hcid, rfl⟩ := List.mem_map.mp he
  show (if cid ∈ allIds then getChunk s cid else none) =
    s.chunks.find? fun c => c.id = cid
  rw [if_pos hcid]
  rfl

/-- C2 (amended): under a coherent cache the streaming BM25 path equals
the in-memory path for every limit; the streaming vector path equals the
in-memory one whenever the BM25 candidate handoff is absent, matches
some embedded chunk, or no chunk is embedded; and the full hybrid
pipelines coincide when additionally the combined id list fits within
the `limit * 2` slice that the streaming side fetches. -/
theorem c2_streaming_equiv_amended (ops : FloatOps) (query : Option (List Char))
    (qe : Option (List ℚ)) (s : Store) (limit : ℕ)
    (hc : CacheOk s) (hv : hybridSideOk ops query s limit)
    (hslice : (setOrder ((searchBM25 ops query s.chunks (limit * 2)).map (·.id) ++
        (searchVector ops qe s.chunks (limit * 2)
          (buildVectorCandidateSet (searchBM25 ops query s.chunks (limit * 2))
            limit 4)).map (·.id))).length ≤ limit * 2)
    (bw vw : ℚ) :
    (∀ L, searchBM25FromDB ops s query L none = searchBM25 ops query s.chunks L) ∧
    searchVectorFromDB ops s qe (limit * 2) (some embNotNull)
        (buildVectorCandidateSet (searchBM25 ops query s.chunks (limit * 2)) limit 4) =
      searchVector ops qe s.chunks (limit * 2)
        (buildVectorCandidateSet (searchBM25 ops query s.chunks (limit * 2)) limit 4) ∧
    searchHybridFromDB ops s query qe limit bw vw =
      searchHybrid ops query qe s.chunks limit bw vw := by
  have hB : ∀ L, searchBM25FromDB ops s query L none = searchBM25 ops query s.chunks L :=
    fun L => searchBM25FromDB_eq_mem ops s query L hc
  have hVec : searchVectorFromDB ops s qe (limit * 2) (some embNotNull)
      (buildVectorCandidateSet (searchBM25 ops query s.chunks (limit * 2)) limit 4) =
      searchVector ops qe s.chunks (limit * 2)
        (buildVectorCandidateSet (searchBM25 ops query s.chunks (limit * 2)) limit 4) := by
    apply searchVectorFromDB_eq_mem
    intro cs hcs hne
    have hv' := hv
    simp only [hybridSideOk] at hv'
    rw [hcs] at hv'
    exact hv'
  refine ⟨hB, hVec, ?_⟩
  simp only [searchHybridFromDB, searchHybrid]
  rw [hB (limit * 2), hVec]
  exact hybridAssemble_take_lookup limit s _ _ hslice

set_option maxRecDepth 1000000 in
unseal Rat.add Rat.sub Rat.mul Rat.inv in
/-- C2 witness: the amended equivalence applied to two concrete stores —
one exercising the nontrivial candidate-handoff condition, one with a
nonempty agreed-upon result. -/
theorem c2_streaming_equiv_amended_witness :
    (CacheOk store1 ∧ hybridSideOk ops0 queryCat store1 1 ∧
      searchHybridFromDB ops0 store1 queryCat qe0 1 (1 / 2) (1 / 2) =
        searchHybrid ops0 queryCat qe0 store1.chunks 1 (1 / 2) (1 / 2)) ∧
    (searchHybridFromDB ops0 store2 queryCat qe0 2 (1 / 2) (1 / 2) =
        searchHybrid ops0 queryCat qe0 store2.chunks 2 (1 / 2) (1 / 2)) ∧
    searchHybrid ops0 queryCat qe0 store2.chunks 2 (1 / 2) (1 / 2) =
      [⟨0, 1, 1 / 2⟩] := by
  have h1 : buildVectorCandidateSet (searchBM25 ops0 queryCat store1.chunks (1 * 2))
      1 4 = some [1] := by decide
  have hv1 : hybridSideOk ops0 queryCat store1 1 := by
    simp only [hybridSideOk, h1]
    left
    decide
  have h2 : buildVectorCandidateSet (searchBM25 ops0 queryCat store2.chunks (2 * 2))
      2 4 = none := by decide
  have hv2 : hybridSideOk ops0 queryCat store2 2 := by
    simp only [hybridSideOk, h2]
  refine ⟨⟨Or.inl (by decide), hv1, ?_⟩, ?_, by decide⟩
  · exact (c2_streaming_equiv_amended ops0 queryCat qe0 store1 1
      (Or.inl (by decide)) hv1 (by decide) (1 / 2) (1 / 2)).2.2
  · exact (c2_streaming_equiv_amended ops0 queryCat qe0 store2 2
      (Or.inl (by decide)) hv2 (by decide) (1 / 2) (1 / 2)).2.2

set_option maxRecDepth 1000000 in
unseal Rat.add Rat.sub Rat.mul Rat.inv in
/-- C2 counterexample: on a corpus whose only lexical match is not
embedded, the streaming hybrid returns nothing while the in-memory
hybrid returns chunk 2 — the code paths disagree even though the cache
is coherent, because the candidate-handoff side condition fails. -/
theorem c2_streaming_counterexample :
    CacheOk store0 ∧
    ¬ hybridSideOk ops0 queryCat store0 1 ∧
    searchHybridFromDB ops0 store0 queryCat qe0 1 (1 / 2) (1 / 2) ≠
      searchHybrid ops0 queryCat qe0 store0.chunks 1 (1 / 2) (1 / 2) := by
  refine ⟨Or.inl (by decide), ?_, by decide⟩
  have h1 : buildVectorCandidateSet (searchBM25 ops0 queryCat store0.chunks (1 * 2))
      1 4 = some [1] := by decide
  simp only [hybridSideOk, h1]
  decide

end Rag
